import Mathlib

/-!
Verification of the real-time streaming pipeline of the Medview healthcare
companion frontend.

Shallow embedding of:
- the medical safety checker (frontend safety module: detectEmergency,
  detectMedicationInteraction, checkMedicalContentSafety),
- the HIPAA sanitizer (sanitizeForHIPAA: three global regex replacements),
- the WebSocket hook (useWebSocket: reconnect backoff, attempt counter),
- the StreamingChat WebSocket message handler (start / chunk / end / error),
- the App-level streaming send handler (optimistic agent message, onChunk
  accumulation, onError rollback),
- the AgentCore client (getUserSpecificSessionId, simulated streaming of
  complete responses by 5-word groups).

JavaScript strings are modelled as Lean String / List Char (one Char per
unicode scalar; every character handled by the embedded patterns is ASCII).
Regex word boundaries depend on the previous character only through its
word-character status, so scanners carry that Bool instead of the character.
-/

namespace Medview

/-! ## Character classes used by the sanitizer regexes (JS semantics) -/

/-- JS regex word character: `[A-Za-z0-9_]` (the `\w` class without the
unicode flag). -/
def isWordChar (c : Char) : Bool :=
  ('a' ≤ c && c ≤ 'z') || ('A' ≤ c && c ≤ 'Z') || ('0' ≤ c && c ≤ '9') || c = '_'

/-- ASCII digit, the `\d` class. -/
def isDigitC (c : Char) : Bool := '0' ≤ c && c ≤ '9'

/-- The optional separator class `[-.]` of the phone regex. -/
def isSep (c : Char) : Bool := c = '-' || c = '.'

/-- A `\b` word boundary between a previous character of word-status `pw`
and the character `c`. At the start of the string `pw = false`. -/
def bnd (pw : Bool) (c : Char) : Bool := pw != isWordChar c

/-- Word-status of an optional next character; absent means non-word
(end of string). -/
def isWordOpt : Option Char → Bool
  | some c => isWordChar c
  | none => false

/-- A trailing `\b` after a word character: the next character (head of the
remainder) must be non-word, or the string must end. -/
def tailBnd (l : List Char) : Bool :=
  match l with
  | [] => true
  | c :: _ => !isWordChar c

/-- Word-status of the character immediately preceding a position, given the
characters `u` scanned since the last known status `pw`. -/
def lastPW (u : List Char) (pw : Bool) : Bool :=
  match u.getLast? with
  | some c => isWordChar c
  | none => pw

/-! ## Generic matcher building blocks -/

/-- Consume exactly `n` characters satisfying `p`; return the remainder. -/
def dropClass (p : Char → Bool) : Nat → List Char → Option (List Char)
  | 0, l => some l
  | _ + 1, [] => none
  | n + 1, c :: l => if p c then dropClass p n l else none

/-- Consume one optional separator (`[-.]?`, greedy). -/
def dropSep (l : List Char) : List Char :=
  match l with
  | c :: rest => if isSep c then rest else l
  | [] => []

/-- Consume one required literal character. -/
def dropLit (ch : Char) (l : List Char) : Option (List Char) :=
  match l with
  | c :: rest => if c = ch then some rest else none
  | [] => none

/-- Length of the maximal prefix of characters satisfying `p` (a greedy
`+`/`*` run). -/
def countWhile (p : Char → Bool) : List Char → Nat
  | [] => 0
  | c :: l => if p c then countWhile p l + 1 else 0

/-! ## The phone matcher: `\b\d{3}[-.]?\d{3}[-.]?\d{4}\b` -/

/-- Remainder after `\d{3}[-.]?\d{3}[-.]?\d{4}` matches a prefix of `l`.
The optional separators are deterministic: taking a present separator is the
only viable choice because the following element requires a digit. -/
def phoneCore (l : List Char) : Option (List Char) :=
  (dropClass isDigitC 3 l).bind fun r1 =>
  (dropClass isDigitC 3 (dropSep r1)).bind fun r3 =>
  (dropClass isDigitC 4 (dropSep r3)).bind fun r5 =>
  some r5

/-- Attempt the phone regex at the position holding `c`, with previous
word-status `pw` and following characters `rest`. On success returns the
word-status of the last consumed character (always a digit, hence `true`)
and the unconsumed remainder. -/
def phoneMatch (pw : Bool) (c : Char) (rest : List Char) : Option (Bool × List Char) :=
  if bnd pw c then
    match phoneCore (c :: rest) with
    | some rem => if tailBnd rem then some (true, rem) else none
    | none => none
  else none

/-! ## The SSN matcher: `\b\d{3}-\d{2}-\d{4}\b` -/

/-- Remainder after `\d{3}-\d{2}-\d{4}` matches a prefix of `l`. -/
def ssnCore (l : List Char) : Option (List Char) :=
  (dropClass isDigitC 3 l).bind fun r1 =>
  (dropLit '-' r1).bind fun r2 =>
  (dropClass isDigitC 2 r2).bind fun r3 =>
  (dropLit '-' r3).bind fun r4 =>
  (dropClass isDigitC 4 r4).bind fun r5 =>
  some r5

/-- Attempt the SSN regex at the position holding `c`. -/
def ssnMatch (pw : Bool) (c : Char) (rest : List Char) : Option (Bool × List Char) :=
  if bnd pw c then
    match ssnCore (c :: rest) with
    | some rem => if tailBnd rem then some (true, rem) else none
    | none => none
  else none

/-! ## The email matcher: `\b[A-Za-z0-9._%+-]+@[A-Za-z0-9.-]+\.[A-Z|a-z]{2,}\b`

The local part cannot contain `@`, so its greedy run is deterministic.
The domain part contains `.`, so the engine backtracks over the split
between `[A-Za-z0-9.-]+` and the literal `.`; the `{2,}` of the top-level
domain backtracks to satisfy the trailing `\b`. The class `[A-Z|a-z]`
literally contains the pipe character. -/

def localClass (c : Char) : Bool :=
  ('a' ≤ c && c ≤ 'z') || ('A' ≤ c && c ≤ 'Z') || ('0' ≤ c && c ≤ '9') ||
  c = '.' || c = '_' || c = '%' || c = '+' || c = '-'

def domainClass (c : Char) : Bool :=
  ('a' ≤ c && c ≤ 'z') || ('A' ≤ c && c ≤ 'Z') || ('0' ≤ c && c ≤ '9') ||
  c = '.' || c = '-'

def tldClass (c : Char) : Bool :=
  ('a' ≤ c && c ≤ 'z') || ('A' ≤ c && c ≤ 'Z') || c = '|'

/-- Greedy search for the top-level-domain length: the largest
`2 ≤ t ≤ fuel` such that the first `t` characters of `afterDot` are in the
TLD class and a `\b` holds after them. Returns the word-status of the last
TLD character and `t`. -/
def tldSearch (afterDot : List Char) : Nat → Option (Bool × Nat)
  | 0 => none
  | t + 1 =>
    if t + 1 < 2 then none
    else
      match afterDot.get? t with
      | some lc =>
        if isWordChar lc != isWordOpt (afterDot.get? (t + 1)) then
          some (isWordChar lc, t + 1)
        else tldSearch afterDot t
      | none => tldSearch afterDot t

/-- Greedy search for the domain split: the largest `1 ≤ k ≤ fuel` such
that `D` has a literal dot at index `k` (the first `k` characters form the
`[A-Za-z0-9.-]+` part) and a valid TLD follows. Returns
`(k, lastWordStatus, t)`. -/
def domSearch (D : List Char) : Nat → Option (Nat × Bool × Nat)
  | 0 => none
  | k + 1 =>
    if D.get? (k + 1) = some '.' then
      match tldSearch (D.drop (k + 2)) (countWhile tldClass (D.drop (k + 2))) with
      | some (w, t) => some (k + 1, w, t)
      | none => domSearch D k
    else domSearch D k

/-- Attempt the email regex at the position holding `c`. -/
def emailMatch (pw : Bool) (c : Char) (rest : List Char) : Option (Bool × List Char) :=
  if bnd pw c then
    let l := c :: rest
    let L := countWhile localClass l
    if L = 0 then none
    else
      match l.drop L with
      | '@' :: D =>
        match domSearch D (countWhile domainClass D) with
        | some (k, w, t) => some (w, D.drop (k + 1 + t))
        | none => none
      | _ => none
  else none

/-! ## The global-replace scanner

Models `String.prototype.replace(regex, repl)` with the `g` flag: try a
match at each position from left to right; on success emit the replacement,
resume after the match (the boundary context carried over is the
word-status of the last matched character); on failure emit the character
and advance by one. All three patterns consume at least one character, so
zero-length-match handling is not needed. -/

def scanR (m : Bool → Char → List Char → Option (Bool × List Char))
    (repl : List Char) : Bool → List Char → List Char
  | _, [] => []
  | pw, c :: rest =>
    match m pw c rest with
    | some (w, rem) => repl ++ scanR m repl w (rest.drop (rest.length - rem.length))
    | none => c :: scanR m repl (isWordChar c) rest
termination_by _ l => l.length
decreasing_by
  all_goals simp_wf
  all_goals omega

/-- Scan that checks that no position admits a match. -/
def noScan (m : Bool → Char → List Char → Option (Bool × List Char)) :
    Bool → List Char → Bool
  | _, [] => true
  | pw, c :: rest => (m pw c rest).isNone && noScan m (isWordChar c) rest

def PHONE_REPL : List Char := "[PHONE REDACTED]".data
def EMAIL_REPL : List Char := "[EMAIL REDACTED]".data
def SSN_REPL : List Char := "[SSN REDACTED]".data

/-- `sanitizeForHIPAA`: mask phone numbers, then email addresses, then SSN
patterns, each by a global regex replace. -/
def sanitizeForHIPAA (content : String) : String :=
  ⟨scanR ssnMatch SSN_REPL false
    (scanR emailMatch EMAIL_REPL false
      (scanR phoneMatch PHONE_REPL false content.data))⟩

/-! ## The medical safety checker -/

/-- JS `String.prototype.includes` on character lists. -/
def includesL (needle : List Char) : List Char → Bool
  | [] => needle.isEmpty
  | c :: t => needle.isPrefixOf (c :: t) || includesL needle t

/-- JS `hay.includes(needle)` on strings. -/
def strIncludes (hay needle : String) : Bool := includesL needle.data hay.data

/-- JS `toLowerCase`, adequate for the ASCII keyword lists involved. -/
def lowerStr (s : String) : String := ⟨s.data.map Char.toLower⟩

def CRITICAL_EMERGENCY_PHRASES : List String :=
  ["chest pain", "can't breathe", "difficulty breathing", "severe bleeding",
   "loss of consciousness", "severe allergic reaction", "stroke symptoms",
   "heart attack", "suicidal thoughts", "drug overdose", "severe trauma"]

def MEDICATION_INTERACTION_TERMS : List String :=
  ["taking with", "combined with", "drug interaction", "contraindication",
   "should not take"]

/-- Emergency keyword detection (case-insensitive substring match). -/
def detectEmergency (content : String) : Bool :=
  CRITICAL_EMERGENCY_PHRASES.any fun phrase => strIncludes (lowerStr content) phrase

/-- Medication interaction detection (case-insensitive substring match). -/
def detectMedicationInteraction (content : String) : Bool :=
  MEDICATION_INTERACTION_TERMS.any fun term => strIncludes (lowerStr content) term

structure SafetyCheckResult where
  isSafe : Bool
  emergencyDetected : Bool
  medicationWarning : Bool
  recommendations : List String
deriving Repr, DecidableEq

/-- `checkMedicalContentSafety`: the recommendations list is built by
pushing the two emergency codes when emergency is detected, then the two
medication codes when a medication warning is detected; the result is
unsafe exactly when an emergency was detected. -/
def checkMedicalContentSafety (content : String) : SafetyCheckResult :=
  let emergencyDetected := detectEmergency content
  let medicationWarning := detectMedicationInteraction content
  let recommendations :=
    (if emergencyDetected then ["CALL_911", "SEEK_IMMEDIATE_CARE"] else []) ++
    (if medicationWarning then ["CONSULT_PHARMACIST", "VERIFY_WITH_DOCTOR"] else [])
  { isSafe := !emergencyDetected
    emergencyDetected := emergencyDetected
    medicationWarning := medicationWarning
    recommendations := recommendations }

/-! ## The WebSocket hook (useWebSocket) -/

def MAX_RECONNECT_ATTEMPTS : Nat := 5
def INITIAL_RECONNECT_DELAY : Nat := 1000

structure WSConnState where
  reconnectAttempts : Nat
  isConnected : Bool
  isConnecting : Bool
  error : Option String
deriving Repr, DecidableEq

/-- The `ws.onopen` handler: connected, clear the error, reset the
reconnect-attempt counter (the queued-message flush does not affect this
state). -/
def wsOnOpen (s : WSConnState) : WSConnState :=
  { s with isConnected := true, isConnecting := false, error := none,
           reconnectAttempts := 0 }

/-- The `ws.onclose` handler: below the attempt ceiling, schedule a
reconnect after `INITIAL_RECONNECT_DELAY * 2 ^ attempts` ms and increment
the counter (returned as `some delay`); at the ceiling, schedule nothing
and surface the terminal error. -/
def wsOnClose (s : WSConnState) : WSConnState × Option Nat :=
  if s.reconnectAttempts < MAX_RECONNECT_ATTEMPTS then
    ({ s with isConnected := false, isConnecting := false,
              reconnectAttempts := s.reconnectAttempts + 1 },
     some (INITIAL_RECONNECT_DELAY * 2 ^ s.reconnectAttempts))
  else
    ({ s with isConnected := false, isConnecting := false,
              error := some "Max reconnection attempts reached" }, none)

/-- Delays scheduled by `n` consecutive unexpected closes with no
intervening successful open, starting from state `s`. -/
def closeDelays (s : WSConnState) : Nat → List Nat
  | 0 => []
  | n + 1 =>
    match wsOnClose s with
    | (s2, some d) => d :: closeDelays s2 n
    | (_, none) => []

/-! ## The StreamingChat WebSocket message handler -/

inductive MsgType where
  | user
  | agent
deriving Repr, DecidableEq

structure ChatMessage where
  type : MsgType
  content : String
deriving Repr, DecidableEq

/-- Inbound frame `{type: start|chunk|end|error, content?, message?}`. -/
inductive WSMessage where
  | start
  | chunk (content : Option String)
  | ended
  | error (message : String)
deriving Repr, DecidableEq

structure ChatState where
  messages : List ChatMessage
  streamingContent : String
  isProcessing : Bool
deriving Repr, DecidableEq

/-- JS truthiness of the optional `content` field: absent or empty is
falsy. -/
def contentTruthy : Option String → Bool
  | none => false
  | some s => !(s = "")

/-- The `switch (msg.type)` of the StreamingChat WebSocket effect:
`start` clears the buffer; `chunk` appends truthy content to the buffer;
`end` finalizes a nonempty buffer into the message list; `error` appends an
error bubble and discards the buffer. -/
def handleWSMessage (st : ChatState) (msg : WSMessage) : ChatState :=
  match msg with
  | .start => { st with isProcessing := true, streamingContent := "" }
  | .chunk content =>
    if contentTruthy content then
      { st with streamingContent := st.streamingContent ++ content.getD "" }
    else st
  | .ended =>
    if st.streamingContent = "" then
      { st with streamingContent := "", isProcessing := false }
    else
      { messages := st.messages ++ [⟨.agent, st.streamingContent⟩]
        streamingContent := ""
        isProcessing := false }
  | .error message =>
    { messages := st.messages ++ [⟨.agent, "Error: " ++ message⟩]
      streamingContent := ""
      isProcessing := false }

/-! ## The App-level streaming send handler (optimistic message, rollback) -/

/-- Replace the element at index `i` by `f` applied to it (the in-place
mutation of `newMessages[agentMessageIndex]`). -/
def setIdx (f : ChatMessage → ChatMessage) : Nat → List ChatMessage → List ChatMessage
  | _, [] => []
  | 0, m :: rest => f m :: rest
  | i + 1, m :: rest => m :: setIdx f i rest

/-- The `onChunk` callback: append the (cleaned) chunk text to the content
of the agent message at `agentMessageIndex`, guarded on it being an agent
message. -/
def applyChunk (idx : Nat) (ms : List ChatMessage) (chunk : String) : List ChatMessage :=
  setIdx (fun m => if m.type = .agent then { m with content := m.content ++ chunk } else m)
    idx ms

/-- Submitting a prompt appends the user message and the optimistic empty
agent message. -/
def submitPrompt (ms : List ChatMessage) (prompt : String) : List ChatMessage :=
  ms ++ [⟨.user, prompt⟩, ⟨.agent, ""⟩]

/-- The `onError` callback removes the last message
(`prev.slice(0, -1)`), i.e. the optimistically created agent message. -/
def onErrorRollback (ms : List ChatMessage) : List ChatMessage :=
  ms.dropLast

/-! ## The AgentCore client: session identifiers -/

/-- `getUserSpecificSessionId`, with its effects made explicit: `userSub`
is the Cognito user id when authenticated, `stored` the value under the
`agentcore_session_id` key in session storage, `now` the value of
`Date.now()`, and `r1`, `r2` the two random base-36 fragments. -/
def getUserSpecificSessionId (userSub : Option String) (stored : Option String)
    (now : Nat) (r1 r2 : String) : String :=
  match userSub with
  | some sub => "user_" ++ sub ++ "_session"
  | none =>
    match stored with
    | some sessionId => sessionId
    | none => "session_" ++ toString now ++ "_" ++ r1 ++ "_" ++ r2

/-! ## The AgentCore client: simulated streaming of complete responses -/

/-- JS `text.split(' ')`: split at every space, keeping empty fragments. -/
def splitWords : List Char → List (List Char)
  | [] => [[]]
  | c :: rest =>
    if c = ' ' then [] :: splitWords rest
    else
      match splitWords rest with
      | w :: ws => (c :: w) :: ws
      | [] => [[c]]

/-- JS `words.join(' ')`: concatenate with a single space between
fragments. -/
def joinWords : List (List Char) → List Char
  | [] => []
  | [w] => w
  | w :: ws => w ++ ' ' :: joinWords ws

/-- The `streamWords` loop: emit `words.slice(i, i+5).join(' ')` plus a
trailing space unless this is the last group, advancing by 5. -/
def streamWords5 (ws : List (List Char)) : List (List Char) :=
  if ws = [] then []
  else if ws.length ≤ 5 then [joinWords ws]
  else (joinWords (ws.take 5) ++ [' ']) :: streamWords5 (ws.drop 5)
termination_by ws.length
decreasing_by
  simp_wf
  rename_i h1 h2
  have : ws.length ≠ 0 := by simpa [List.length_eq_zero] using h1
  omega

/-- The chunk strings emitted for a complete non-streamed response text. -/
def simulateStream (text : String) : List String :=
  (streamWords5 (splitWords text.data)).map fun l => ⟨l⟩

/-! ## The AgentCore client: streaming delta accumulation -/

/-- One `contentBlockDelta` / `messageDelta` accumulation step of
`invokeAgentStream`: `fullResponse += text` guarded on the truthiness of
the delta text. -/
def deltaStep (fullResponse : String) (text : Option String) : String :=
  if contentTruthy text then fullResponse ++ text.getD "" else fullResponse

/-- Concatenation of a list of strings in order. -/
def concatStrs : List String → String
  | [] => ""
  | c :: cs => c ++ concatStrs cs

/-! ## Verification predicates for the sanitizer patterns -/

/-- All characters of `m` satisfy `p`. -/
def AllP (p : Char → Bool) (m : List Char) : Prop := ∀ x ∈ m, p x = true

/-- An optional single separator, as consumed by `[-.]?`. -/
def SepOpt (s : List Char) : Prop := s = [] ∨ ∃ a, s = [a] ∧ isSep a = true

/-- The texts matched by `\d{3}[-.]?\d{3}[-.]?\d{4}`. -/
def PhoneShape (m : List Char) : Prop :=
  ∃ d1 s1 d2 s2 d3, m = d1 ++ (s1 ++ (d2 ++ (s2 ++ d3))) ∧
    d1.length = 3 ∧ d2.length = 3 ∧ d3.length = 4 ∧
    AllP isDigitC d1 ∧ AllP isDigitC d2 ∧ AllP isDigitC d3 ∧
    SepOpt s1 ∧ SepOpt s2

/-- The texts matched by `\d{3}-\d{2}-\d{4}`. -/
def SsnShape (m : List Char) : Prop :=
  ∃ d1 d2 d3, m = d1 ++ ('-' :: (d2 ++ ('-' :: d3))) ∧
    d1.length = 3 ∧ d2.length = 2 ∧ d3.length = 4 ∧
    AllP isDigitC d1 ∧ AllP isDigitC d2 ∧ AllP isDigitC d3

end Medview

namespace Medview

/-! ## Basic string lemmas -/

theorem str_mk_append (a b : List Char) : (⟨a⟩ : String) ++ ⟨b⟩ = ⟨a ++ b⟩ := rfl

theorem str_append_assoc (a b c : String) : a ++ b ++ c = a ++ (b ++ c) := by
  cases a; cases b; cases c
  simp only [str_mk_append, List.append_assoc]

theorem str_empty_append (s : String) : "" ++ s = s := by
  cases s; rfl

theorem str_append_empty (s : String) : s ++ "" = s := by
  cases s
  show (⟨_ ++ []⟩ : String) = _
  simp

/-! ## Lemmas for the chunk-accumulation reducer (C1) -/

theorem handleWSMessage_chunks_foldl (cs : List String) :
    ∀ st : ChatState,
      (cs.map fun c => WSMessage.chunk (some c)).foldl handleWSMessage st =
        { st with streamingContent := st.streamingContent ++ concatStrs cs } := by
  induction cs with
  | nil =>
    intro st
    cases st
    simp [concatStrs, str_append_empty]
  | cons c cs ih =>
    intro st
    by_cases hc : c = ""
    · subst hc
      simp only [List.map_cons, List.foldl_cons, handleWSMessage, contentTruthy]
      rw [ih]
      simp [concatStrs, str_empty_append]
    · simp only [List.map_cons, List.foldl_cons, handleWSMessage, contentTruthy]
      rw [if_pos (by simpa using hc)]
      rw [ih]
      simp [concatStrs, Option.getD, str_append_assoc]

theorem deltaStep_foldl (cs : List String) :
    ∀ fullResponse : String,
      (cs.map some).foldl deltaStep fullResponse = fullResponse ++ concatStrs cs := by
  induction cs with
  | nil => intro fr; simp [concatStrs, str_append_empty]
  | cons c cs ih =>
    intro fr
    by_cases hc : c = ""
    · subst hc
      simp only [List.map_cons, List.foldl_cons, deltaStep, contentTruthy]
      rw [ih]
      simp [concatStrs, str_empty_append]
    · simp only [List.map_cons, List.foldl_cons, deltaStep, contentTruthy]
      rw [if_pos (by simpa using hc)]
      rw [ih]
      simp [concatStrs, Option.getD, str_append_assoc]

/-- C1: for every sequence of n chunk messages delivered in order within one
turn (n ≥ 0), the assembled streaming buffer equals the concatenation of the
chunk contents in receipt order — nothing added, dropped, or reordered — and
the visible message list is untouched while streaming; likewise the
`fullResponse` accumulator of `invokeAgentStream` equals the concatenation
of the received delta texts in receipt order. -/
theorem conversationTurn_buffer_eq_concat_of_chunks :
    ∀ (st : ChatState) (cs : List String),
      ((cs.map fun c => WSMessage.chunk (some c)).foldl handleWSMessage
          (handleWSMessage st .start)).streamingContent = concatStrs cs ∧
      ((cs.map fun c => WSMessage.chunk (some c)).foldl handleWSMessage
          (handleWSMessage st .start)).messages = st.messages ∧
      (cs.map some).foldl deltaStep "" = concatStrs cs := by
  intro st cs
  rw [handleWSMessage_chunks_foldl, deltaStep_foldl]
  simp [handleWSMessage, str_empty_append]

/-! ## Lemmas for simulated streaming (C2) -/

theorem splitWords_ne_nil (l : List Char) : splitWords l ≠ [] := by
  cases l with
  | nil => simp [splitWords]
  | cons c rest =>
    simp only [splitWords]
    by_cases hc : c = ' '
    · simp [hc]
    · rw [if_neg hc]
      cases h : splitWords rest <;> simp

theorem joinWords_cons_ne (w : List Char) (ws : List (List Char)) (h : ws ≠ []) :
    joinWords (w :: ws) = w ++ ' ' :: joinWords ws := by
  cases ws with
  | nil => exact absurd rfl h
  | cons w2 ws2 => rfl

theorem joinWords_splitWords (l : List Char) : joinWords (splitWords l) = l := by
  induction l with
  | nil => rfl
  | cons c rest ih =>
    simp only [splitWords]
    by_cases hc : c = ' '
    · subst hc
      rw [if_pos rfl, joinWords_cons_ne _ _ (splitWords_ne_nil rest), ih]
      rfl
    · rw [if_neg hc]
      cases h : splitWords rest with
      | nil => exact absurd h (splitWords_ne_nil rest)
      | cons w ws =>
        rw [h] at ih
        cases ws with
        | nil =>
          simp only [joinWords] at ih ⊢
          simpa using ih
        | cons w2 ws2 =>
          rw [joinWords_cons_ne _ _ (by simp)] at ih
          rw [joinWords_cons_ne _ _ (by simp)]
          simpa using ih

theorem joinWords_append (a b : List (List Char)) (ha : a ≠ []) (hb : b ≠ []) :
    joinWords (a ++ b) = joinWords a ++ ' ' :: joinWords b := by
  induction a with
  | nil => exact absurd rfl ha
  | cons w ws ih =>
    cases ws with
    | nil =>
      rw [List.cons_append, List.nil_append, joinWords_cons_ne _ _ hb]
      rfl
    | cons w2 ws2 =>
      rw [List.cons_append, joinWords_cons_ne _ _ (by simp),
        joinWords_cons_ne _ _ (by simp), ih (by simp)]
      simp

theorem streamWords5_join_fuel (n : Nat) :
    ∀ ws : List (List Char), ws.length ≤ n → ws ≠ [] →
      (streamWords5 ws).flatten = joinWords ws := by
  induction n with
  | zero =>
    intro ws hlen h
    exact absurd (by simpa [List.length_eq_zero] using Nat.le_zero.mp hlen) h
  | succ n ih =>
    intro ws hlen h
    rw [streamWords5, if_neg h]
    by_cases h5 : ws.length ≤ 5
    · rw [if_pos h5]; simp
    · rw [if_neg h5]
      have hlenpos : ws.length ≠ 0 := by simpa [List.length_eq_zero] using h
      have hdrop : (ws.drop 5) ≠ [] := by
        simp only [ne_eq, ← List.length_eq_zero, List.length_drop]
        omega
      have hrec := ih (ws.drop 5) (by simp; omega) hdrop
      simp only [List.flatten_cons, hrec]
      rw [List.append_assoc]
      show joinWords (ws.take 5) ++ (' ' :: joinWords (ws.drop 5)) = joinWords ws
      rw [← joinWords_append _ _ (by simp [← List.length_eq_zero]; omega) hdrop]
      simp

theorem streamWords5_join (ws : List (List Char)) (h : ws ≠ []) :
    (streamWords5 ws).flatten = joinWords ws :=
  streamWords5_join_fuel ws.length ws le_rfl h

theorem concatStrs_map_mk (ls : List (List Char)) :
    concatStrs (ls.map fun l => (⟨l⟩ : String)) = ⟨ls.flatten⟩ := by
  induction ls with
  | nil => rfl
  | cons l ls ih => simp only [List.map_cons, concatStrs, ih, List.flatten_cons, str_mk_append]

theorem streamWords5_get_mid_fuel (n : Nat) :
    ∀ (ws : List (List Char)), ws.length ≤ n → ∀ k, 5 * k + 5 < ws.length →
      (streamWords5 ws).get? k = some (joinWords ((ws.drop (5 * k)).take 5) ++ [' ']) := by
  induction n with
  | zero => intro ws hlen k hk; omega
  | succ n ih =>
    intro ws hlen k hk
    have hne : ws ≠ [] := by simp [← List.length_eq_zero]; omega
    rw [streamWords5, if_neg hne, if_neg (by omega)]
    cases k with
    | zero => simp
    | succ k =>
      have hrec := ih (ws.drop 5) (by simp; omega) k (by simp; omega)
      rw [List.get?_cons_succ, hrec, List.drop_drop]
      rw [show 5 + 5 * k = 5 * (k + 1) from by ring]

theorem streamWords5_get_mid (ws : List (List Char)) :
    ∀ k, 5 * k + 5 < ws.length →
      (streamWords5 ws).get? k = some (joinWords ((ws.drop (5 * k)).take 5) ++ [' ']) :=
  streamWords5_get_mid_fuel ws.length ws le_rfl

theorem streamWords5_get_last_fuel (n : Nat) :
    ∀ (ws : List (List Char)), ws.length ≤ n →
      ∀ k, 5 * k < ws.length → ws.length ≤ 5 * k + 5 →
        (streamWords5 ws).get? k = some (joinWords (ws.drop (5 * k))) := by
  induction n with
  | zero => intro ws hlen k hk1 hk2; omega
  | succ n ih =>
    intro ws hlen k hk1 hk2
    have hne : ws ≠ [] := by simp [← List.length_eq_zero]; omega
    rw [streamWords5, if_neg hne]
    by_cases h5 : ws.length ≤ 5
    · rw [if_pos h5]
      cases k with
      | zero => simp
      | succ k => omega
    · rw [if_neg h5]
      cases k with
      | zero => omega
      | succ k =>
        have hrec := ih (ws.drop 5) (by simp; omega) k (by simp; omega) (by simp; omega)
        rw [List.get?_cons_succ, hrec, List.drop_drop]
        rw [show 5 + 5 * k = 5 * (k + 1) from by ring]

theorem streamWords5_get_last (ws : List (List Char)) :
    ∀ k, 5 * k < ws.length → ws.length ≤ 5 * k + 5 →
      (streamWords5 ws).get? k = some (joinWords (ws.drop (5 * k))) :=
  streamWords5_get_last_fuel ws.length ws le_rfl

/-- C2: the simulated streaming path splits a complete non-streamed response
text T into successive groups of 5 words (each chunk but the last is a
5-word group with a trailing space, the last chunk is the remaining group),
and the emitted chunks concatenated in emission order reconstruct T
exactly. -/
theorem simulateStream_groups_and_reconstructs :
    ∀ T : String,
      concatStrs (simulateStream T) = T ∧
      (∀ k, 5 * k + 5 < (splitWords T.data).length →
        (streamWords5 (splitWords T.data)).get? k =
          some (joinWords (((splitWords T.data).drop (5 * k)).take 5) ++ [' '])) ∧
      (∀ k, 5 * k < (splitWords T.data).length →
          (splitWords T.data).length ≤ 5 * k + 5 →
        (streamWords5 (splitWords T.data)).get? k =
          some (joinWords ((splitWords T.data).drop (5 * k)))) := by
  intro T
  refine ⟨?_, streamWords5_get_mid _, streamWords5_get_last _⟩
  show concatStrs ((streamWords5 (splitWords T.data)).map fun l => (⟨l⟩ : String)) = T
  rw [concatStrs_map_mk, streamWords5_join _ (splitWords_ne_nil _), joinWords_splitWords]

/-- Witness for C2 at the fallback-scenario response text from the spec. -/
theorem simulateStream_groups_and_reconstructs_witness :
    concatStrs (simulateStream "Take your medication as prescribed with food and water.") =
      "Take your medication as prescribed with food and water." ∧
    (streamWords5 (splitWords ("Take your medication as prescribed with food and water.").data)).get? 1 =
      some (joinWords ((splitWords ("Take your medication as prescribed with food and water.").data).drop 5)) :=
  ⟨(simulateStream_groups_and_reconstructs _).1,
   (simulateStream_groups_and_reconstructs
      "Take your medication as prescribed with food and water.").2.2 1 (by decide) (by decide)⟩

/-! ## Lemmas for the reconnect backoff (C4) -/

theorem closeDelays_eq (n : Nat) :
    ∀ s : WSConnState,
      closeDelays s n =
        (List.range' s.reconnectAttempts
          (min n (MAX_RECONNECT_ATTEMPTS - s.reconnectAttempts))).map
            fun i => INITIAL_RECONNECT_DELAY * 2 ^ i := by
  induction n with
  | zero => intro s; simp [closeDelays]
  | succ n ih =>
    intro s
    by_cases h : s.reconnectAttempts < MAX_RECONNECT_ATTEMPTS
    · rw [closeDelays]
      simp only [wsOnClose, if_pos h]
      rw [ih]
      have hmin : min (n + 1) (MAX_RECONNECT_ATTEMPTS - s.reconnectAttempts) =
          (min n (MAX_RECONNECT_ATTEMPTS - (s.reconnectAttempts + 1))) + 1 := by
        simp only [MAX_RECONNECT_ATTEMPTS] at h ⊢
        omega
      rw [hmin, List.range'_succ]
      simp
    · rw [closeDelays]
      simp only [wsOnClose, if_neg h]
      have : min (n + 1) (MAX_RECONNECT_ATTEMPTS - s.reconnectAttempts) = 0 := by
        simp only [MAX_RECONNECT_ATTEMPTS] at h ⊢
        omega
      rw [this]
      simp

/-- C4: each unexpected close below the ceiling schedules a reconnect after
`1000 * 2 ^ attempt` ms and increments the attempt counter, so the delays of
consecutive attempts with no intervening open, starting from counter 0, are
the strictly increasing list `[1000, 2000, 4000, 8000, 16000]` truncated to
the number of closes; once the counter has reached the ceiling 5, a close
schedules no reconnect and surfaces the terminal error; a successful open
resets the counter to 0 and clears the error. -/
theorem useWebSocket_backoff_policy :
    (∀ s : WSConnState, s.reconnectAttempts < MAX_RECONNECT_ATTEMPTS →
      (wsOnClose s).2 = some (INITIAL_RECONNECT_DELAY * 2 ^ s.reconnectAttempts) ∧
      (wsOnClose s).1.reconnectAttempts = s.reconnectAttempts + 1) ∧
    (∀ (c1 c2 : Bool) (e : Option String) (n : Nat),
      closeDelays ⟨0, c1, c2, e⟩ n =
        (List.range (min n 5)).map fun i => 1000 * 2 ^ i) ∧
    (∀ (c1 c2 : Bool) (e : Option String) (n : Nat),
      (closeDelays ⟨0, c1, c2, e⟩ n).Pairwise (· < ·)) ∧
    (∀ s : WSConnState, MAX_RECONNECT_ATTEMPTS ≤ s.reconnectAttempts →
      (wsOnClose s).2 = none ∧
      (wsOnClose s).1.error = some "Max reconnection attempts reached") ∧
    (∀ s : WSConnState, (wsOnOpen s).reconnectAttempts = 0 ∧ (wsOnOpen s).error = none) := by
  refine ⟨?_, ?_, ?_, ?_, ?_⟩
  · intro s h
    simp [wsOnClose, if_pos h]
  · intro c1 c2 e n
    rw [closeDelays_eq]
    simp [MAX_RECONNECT_ATTEMPTS, INITIAL_RECONNECT_DELAY, List.range_eq_range']
  · intro c1 c2 e n
    rw [closeDelays_eq]
    have hp : (List.range' 0 (min n (MAX_RECONNECT_ATTEMPTS - 0))).Pairwise (· < ·) :=
      List.pairwise_lt_range' 0 _ 1 (by omega)
    exact hp.map _ fun a b hab => by
      simp only [INITIAL_RECONNECT_DELAY]
      have h2 : (2 : Nat) ^ a < 2 ^ b := Nat.pow_lt_pow_right (by omega) hab
      omega
  · intro s h
    have : ¬ s.reconnectAttempts < MAX_RECONNECT_ATTEMPTS := by omega
    simp [wsOnClose, if_neg this]
  · intro s
    simp [wsOnOpen]

/-- Witness for C4: the first scheduled delay from a fresh connection is
1000 ms; the sixth close schedules nothing; the delays of six consecutive
closes are exactly the five strictly increasing backoff delays. -/
theorem useWebSocket_backoff_policy_witness :
    (wsOnClose ⟨0, true, false, none⟩).2 = some (INITIAL_RECONNECT_DELAY * 2 ^ 0) ∧
    (wsOnClose ⟨5, false, false, none⟩).2 = none ∧
    closeDelays ⟨0, true, false, none⟩ 6 = (List.range (min 6 5)).map fun i => 1000 * 2 ^ i :=
  ⟨(useWebSocket_backoff_policy.1 ⟨0, true, false, none⟩ (by decide)).1,
   (useWebSocket_backoff_policy.2.2.2.1 ⟨5, false, false, none⟩ (by decide)).1,
   useWebSocket_backoff_policy.2.1 true false none 6⟩

/-! ## Session identifiers (C5) -/

/-- C5 counterexample: for an authenticated user the issued session
identifier is `user_<sub>_session`; it contains no timestamp and no random
component (the result is identical for arbitrary values of `Date.now()` and
both random fragments), and for a 3-character user id its length is 16,
below the required 33. -/
theorem sessionId_claim_counterexample :
    getUserSpecificSessionId (some "abc") none 1700000000000 "k3j2h4k2j3h4" "9d8f7g6h5j4k" =
      "user_abc_session" ∧
    getUserSpecificSessionId (some "abc") none 0 "" "" =
      getUserSpecificSessionId (some "abc") none 1700000000000 "k3j2h4k2j3h4" "9d8f7g6h5j4k" ∧
    ("user_abc_session" : String).length < 33 := by
  refine ⟨rfl, rfl, by decide⟩

/-- C5 amended: for an authenticated user the session identifier is the
deterministic string `user_<sub>_session` (independent of timestamp and
random values; its length is 13 + |sub|, hence at least 33 whenever the user
id has at least 20 characters, which holds for 36-character Cognito UUID
subs); only the unauthenticated fallback identifier combines a timestamp
with two independent random components. -/
theorem getUserSpecificSessionId_shape :
    (∀ (sub : String) (stored : Option String) (now : Nat) (r1 r2 : String),
      getUserSpecificSessionId (some sub) stored now r1 r2 = "user_" ++ sub ++ "_session") ∧
    (∀ (sub : String) (stored : Option String) (now : Nat) (r1 r2 : String),
      20 ≤ sub.length →
      33 ≤ (getUserSpecificSessionId (some sub) stored now r1 r2).length) ∧
    (∀ (now : Nat) (r1 r2 : String),
      getUserSpecificSessionId none none now r1 r2 =
        "session_" ++ toString now ++ "_" ++ r1 ++ "_" ++ r2) := by
  refine ⟨fun _ _ _ _ _ => rfl, ?_, fun _ _ _ => rfl⟩
  intro sub stored now r1 r2 h
  show 33 ≤ ("user_" ++ sub ++ "_session").length
  simp only [String.length_append]
  have : ("user_" : String).length = 5 := by decide
  have h2 : ("_session" : String).length = 8 := by decide
  omega

/-- Witness for C5 amended, at a 36-character UUID-shaped user id. -/
theorem getUserSpecificSessionId_shape_witness :
    20 ≤ ("123e4567-e89b-12d3-a456-426614174000" : String).length ∧
    33 ≤ (getUserSpecificSessionId (some "123e4567-e89b-12d3-a456-426614174000")
            none 1700000000000 "a" "b").length :=
  ⟨by decide,
   getUserSpecificSessionId_shape.2.1 "123e4567-e89b-12d3-a456-426614174000"
     none 1700000000000 "a" "b" (by decide)⟩

/-! ## Safety classifier (C6, C9) -/

/-- C6 counterexample: on emergency input the recommendation codes pushed by
the code are `CALL_911` and `SEEK_IMMEDIATE_CARE`, not the
`CALL_EMERGENCY_SERVICES` claimed by the spec; likewise the medication codes
are `CONSULT_PHARMACIST` and `VERIFY_WITH_DOCTOR`, not
`VERIFY_WITH_PROVIDER`. -/
theorem safety_recommendation_codes_counterexample :
    (checkMedicalContentSafety "chest pain").emergencyDetected = true ∧
    (checkMedicalContentSafety "chest pain").recommendations ≠
      ["CALL_EMERGENCY_SERVICES", "SEEK_IMMEDIATE_CARE"] ∧
    (checkMedicalContentSafety "taking with").medicationWarning = true ∧
    (checkMedicalContentSafety "taking with").recommendations ≠
      ["CONSULT_PHARMACIST", "VERIFY_WITH_PROVIDER"] := by
  refine ⟨by decide, by decide, by decide, by decide⟩

/-- C6 amended: for every input text the recommendation codes are exactly
the additive union of `CALL_911` and `SEEK_IMMEDIATE_CARE` when emergency
detection triggers and `CONSULT_PHARMACIST` and `VERIFY_WITH_DOCTOR` when
medication-interaction detection triggers; a detection that does not
trigger contributes no codes. -/
theorem safety_recommendations_additive :
    ∀ content : String,
      (checkMedicalContentSafety content).recommendations =
        (if (checkMedicalContentSafety content).emergencyDetected then
          ["CALL_911", "SEEK_IMMEDIATE_CARE"] else []) ++
        (if (checkMedicalContentSafety content).medicationWarning then
          ["CONSULT_PHARMACIST", "VERIFY_WITH_DOCTOR"] else []) := by
  intro content
  rfl

/-- C9: for every input text, `isSafe` is exactly the negation of
`emergencyDetected`: an emergency detection always makes the result unsafe,
and a medication warning alone never does. -/
theorem safety_isSafe_iff_no_emergency :
    ∀ content : String,
      (checkMedicalContentSafety content).isSafe =
        !(checkMedicalContentSafety content).emergencyDetected ∧
      ((checkMedicalContentSafety content).emergencyDetected = false →
        (checkMedicalContentSafety content).isSafe = true) := by
  intro content
  refine ⟨rfl, fun h => ?_⟩
  have h1 : (checkMedicalContentSafety content).isSafe =
      !(checkMedicalContentSafety content).emergencyDetected := rfl
  rw [h1, h]
  rfl

/-! ## Error rollback (C8) -/

theorem setIdx_append_two (f : ChatMessage → ChatMessage) :
    ∀ (ms : List ChatMessage) (x y : ChatMessage),
      setIdx f (ms.length + 1) (ms ++ [x, y]) = ms ++ [x, f y] := by
  intro ms
  induction ms with
  | nil => intro x y; rfl
  | cons m ms ih =>
    intro x y
    show m :: setIdx f (ms.length + 1) (ms ++ [x, y]) = m :: (ms ++ [x, f y])
    rw [ih]

theorem applyChunk_foldl (chunks : List String) :
    ∀ (ms : List ChatMessage) (p a : String),
      chunks.foldl (applyChunk (ms.length + 1)) (ms ++ [⟨.user, p⟩, ⟨.agent, a⟩]) =
        ms ++ [⟨.user, p⟩, ⟨.agent, a ++ concatStrs chunks⟩] := by
  induction chunks with
  | nil =>
    intro ms p a
    simp [concatStrs, str_append_empty]
  | cons c cs ih =>
    intro ms p a
    simp only [List.foldl_cons, applyChunk, setIdx_append_two]
    simp only [show (MsgType.agent = MsgType.agent) = True by simp, if_true]
    rw [ih]
    simp [concatStrs, str_append_assoc]

/-- C8: whenever a turn ends in error, the rollback removes the
optimistically created partial agent message (whatever chunk text had
accumulated in it), leaving exactly the messages present before the turn
plus the user message — no partial content remains; in the WebSocket chat
the error case likewise discards the partial streaming buffer. -/
theorem onError_rollback_removes_partial :
    ∀ (ms : List ChatMessage) (p : String) (chunks : List String),
      onErrorRollback
        (chunks.foldl (applyChunk (ms.length + 1)) (submitPrompt ms p)) =
        ms ++ [⟨.user, p⟩] ∧
      (∀ (st : ChatState) (emsg : String),
        (handleWSMessage st (.error emsg)).streamingContent = "" ∧
        (handleWSMessage st (.error emsg)).isProcessing = false) := by
  intro ms p chunks
  constructor
  · show onErrorRollback
      (chunks.foldl (applyChunk (ms.length + 1))
        (ms ++ [(⟨.user, p⟩ : ChatMessage), (⟨.agent, ""⟩ : ChatMessage)])) =
      ms ++ [(⟨.user, p⟩ : ChatMessage)]
    rw [applyChunk_foldl]
    show (ms ++ [(⟨.user, p⟩ : ChatMessage),
      (⟨.agent, "" ++ concatStrs chunks⟩ : ChatMessage)]).dropLast =
      ms ++ [(⟨.user, p⟩ : ChatMessage)]
    rw [show ms ++ [(⟨.user, p⟩ : ChatMessage),
        (⟨.agent, "" ++ concatStrs chunks⟩ : ChatMessage)] =
      (ms ++ [(⟨.user, p⟩ : ChatMessage)]) ++
        [(⟨.agent, "" ++ concatStrs chunks⟩ : ChatMessage)] from by simp]
    exact List.dropLast_concat ..
  · intro st emsg
    exact ⟨rfl, rfl⟩

/-! ## Empty chunk is a no-op (C10) -/

/-- C10: processing a chunk message whose content is absent or empty leaves
the chat state unchanged (buffer, message list and processing flag
identical), and the corresponding delta-accumulation step of
`invokeAgentStream` leaves the accumulated full response unchanged. -/
theorem empty_chunk_is_noop :
    ∀ (st : ChatState) (fr : String),
      handleWSMessage st (.chunk none) = st ∧
      handleWSMessage st (.chunk (some "")) = st ∧
      deltaStep fr none = fr ∧
      deltaStep fr (some "") = fr := by
  intro st fr
  refine ⟨rfl, ?_, rfl, ?_⟩
  · simp [handleWSMessage, contentTruthy]
  · simp [deltaStep, contentTruthy]

end Medview


namespace Medview

/-! ## Generic lemmas about the scanner and the no-match scan -/

theorem lastPW_nil (pw : Bool) : lastPW [] pw = pw := rfl

theorem lastPW_cons (c : Char) (u : List Char) (pw : Bool) :
    lastPW (c :: u) pw = lastPW u (isWordChar c) := by
  cases u with
  | nil => rfl
  | cons d u2 =>
    show lastPW (c :: d :: u2) pw = lastPW (d :: u2) (isWordChar c)
    unfold lastPW
    rw [List.getLast?_cons_cons]
    cases h : (d :: u2).getLast? with
    | some x => rfl
    | none => exact absurd h (by simp)

theorem lastPW_getLast (u : List Char) (c : Char) :
    lastPW u (isWordChar c) = isWordOpt ((c :: u).getLast?) := by
  induction u generalizing c with
  | nil => rfl
  | cons d u2 ih =>
    rw [lastPW_cons, ih d, List.getLast?_cons_cons]

theorem scanR_nil (mm : Bool → Char → List Char → Option (Bool × List Char))
    (repl : List Char) (pw : Bool) : scanR mm repl pw [] = [] := by
  rw [scanR]

/-- Scanner step on a successful match, with the consumed prefix made
explicit. -/
theorem scanR_cons_some (mm : Bool → Char → List Char → Option (Bool × List Char))
    (repl : List Char) (pw : Bool) (c : Char) (rest : List Char) (w : Bool)
    (rem m : List Char) (h : mm pw c rest = some (w, rem))
    (hm : c :: rest = m ++ rem) (hne : m ≠ []) :
    scanR mm repl pw (c :: rest) = repl ++ scanR mm repl w rem := by
  obtain ⟨c2, m2, rfl⟩ : ∃ c2 m2, m = c2 :: m2 := by
    cases m with
    | nil => exact absurd rfl hne
    | cons c2 m2 => exact ⟨c2, m2, rfl⟩
  have hrest : rest = m2 ++ rem := by
    injection hm
  have hlen : rest.length - rem.length = m2.length := by
    subst hrest; simp
  have hstep : scanR mm repl pw (c :: rest) =
      repl ++ scanR mm repl w (rest.drop (rest.length - rem.length)) := by
    rw [scanR, h]
  rw [hstep, hlen, hrest, List.drop_left]

theorem scanR_cons_none (mm : Bool → Char → List Char → Option (Bool × List Char))
    (repl : List Char) (pw : Bool) (c : Char) (rest : List Char)
    (h : mm pw c rest = none) :
    scanR mm repl pw (c :: rest) = c :: scanR mm repl (isWordChar c) rest := by
  rw [scanR, h]

/-- If no position of `l` admits a match, the scan is the identity. -/
theorem scanR_eq_self_of_noScan (mm : Bool → Char → List Char → Option (Bool × List Char))
    (repl : List Char) :
    ∀ (l : List Char) (pw : Bool), noScan mm pw l = true → scanR mm repl pw l = l := by
  intro l
  induction l with
  | nil => intro pw _; exact scanR_nil mm repl pw
  | cons c rest ih =>
    intro pw h
    rw [noScan] at h
    simp only [Bool.and_eq_true, Option.isNone_iff_eq_none] at h
    rw [scanR_cons_none mm repl pw c rest h.1, ih _ h.2]

/-- A no-match scan of an appended list restricts to its suffix. -/
theorem noScan_suffix (mm : Bool → Char → List Char → Option (Bool × List Char)) :
    ∀ (m rem : List Char) (pw : Bool), noScan mm pw (m ++ rem) = true →
      noScan mm (lastPW m pw) rem = true := by
  intro m
  induction m with
  | nil => intro rem pw h; exact h
  | cons c m2 ih =>
    intro rem pw h
    rw [List.cons_append, noScan] at h
    simp only [Bool.and_eq_true] at h
    rw [lastPW_cons]
    exact ih rem (isWordChar c) h.2

/-- Transfer a no-match scan to a different initial context when the head
position fails in the new context. -/
theorem noScan_pw_of (mm : Bool → Char → List Char → Option (Bool × List Char))
    (w w2 : Bool) (z : List Char) (H : noScan mm w z = true)
    (Hhead : ∀ h t, z = h :: t → mm w2 h t = none) : noScan mm w2 z = true := by
  cases z with
  | nil => rfl
  | cons h t =>
    rw [noScan] at H ⊢
    simp only [Bool.and_eq_true] at H ⊢
    exact ⟨by rw [Hhead h t rfl]; rfl, H.2⟩

/-- Scanning through a block on which the matcher fails at every position
independently of context and continuation. -/
theorem noScan_append_headfail (mm : Bool → Char → List Char → Option (Bool × List Char))
    (r : List Char) (Hr : ∀ x ∈ r, ∀ pw t, mm pw x t = none) :
    ∀ (pw : Bool) (z : List Char),
      noScan mm pw (r ++ z) = noScan mm (lastPW r pw) z := by
  induction r with
  | nil => intro pw z; rfl
  | cons x r2 ih =>
    intro pw z
    rw [List.cons_append, noScan, Hr x (by simp) pw (r2 ++ z)]
    rw [show (none : Option (Bool × List Char)).isNone = true from rfl, Bool.true_and]
    rw [ih (fun y hy => Hr y (by simp [hy])) (isWordChar x) z, lastPW_cons]

/-- First-divergence characterization of a scan: either it is the identity,
or the input splits at the first matched position, where the matcher
required a word boundary. -/
theorem scanR_firstdiv (mm : Bool → Char → List Char → Option (Bool × List Char))
    (repl : List Char)
    (Hsuf : ∀ pw c rest w rem, mm pw c rest = some (w, rem) →
      ∃ m, c :: rest = m ++ rem ∧ m ≠ [])
    (Hbnd : ∀ pw c rest x, mm pw c rest = some x → bnd pw c = true) :
    ∀ (l : List Char) (pw : Bool),
      scanR mm repl pw l = l ∨
      ∃ u a v z, l = u ++ a :: v ∧ scanR mm repl pw l = u ++ (repl ++ z) ∧
        bnd (lastPW u pw) a = true := by
  intro l
  induction l with
  | nil => intro pw; left; exact scanR_nil mm repl pw
  | cons c rest ih =>
    intro pw
    cases hm : mm pw c rest with
    | some x =>
      obtain ⟨w, rem⟩ := x
      obtain ⟨m, hdecomp, hne⟩ := Hsuf pw c rest w rem hm
      right
      exact ⟨[], c, rest, scanR mm repl w rem, rfl,
        scanR_cons_some mm repl pw c rest w rem m hm hdecomp hne,
        Hbnd pw c rest _ hm⟩
    | none =>
      rcases ih (isWordChar c) with h | ⟨u, a, v, z, hl, hscan, hb⟩
      · left
        rw [scanR_cons_none mm repl pw c rest hm, h]
      · right
        refine ⟨c :: u, a, v, z, by rw [List.cons_append, ← hl], ?_, ?_⟩
        · rw [scanR_cons_none mm repl pw c rest hm, hscan, List.cons_append]
        · rw [lastPW_cons]
          exact hb

end Medview

namespace Medview

/-! ## Lemmas about the matcher building blocks -/

theorem dropClass_sound (p : Char → Bool) :
    ∀ (n : Nat) (l r : List Char), dropClass p n l = some r →
      ∃ m, l = m ++ r ∧ m.length = n ∧ AllP p m := by
  intro n
  induction n with
  | zero =>
    intro l r h
    rw [dropClass] at h
    injection h with h
    exact ⟨[], by rw [h]; rfl, rfl, by intro x hx; simp at hx⟩
  | succ n ih =>
    intro l r h
    cases l with
    | nil => exact absurd h (by rw [dropClass]; simp)
    | cons c l2 =>
      rw [dropClass] at h
      by_cases hp : p c = true
      · rw [if_pos hp] at h
        obtain ⟨m2, hdec, hlen, hall⟩ := ih l2 r h
        refine ⟨c :: m2, by rw [List.cons_append, hdec], by simp [hlen], ?_⟩
        intro x hx
        rcases List.mem_cons.mp hx with rfl | hx2
        · exact hp
        · exact hall x hx2
      · rw [if_neg hp] at h
        exact absurd h (by simp)

theorem dropClass_complete (p : Char → Bool) :
    ∀ (m r : List Char), AllP p m → dropClass p m.length (m ++ r) = some r := by
  intro m
  induction m with
  | nil => intro r _; rfl
  | cons c m2 ih =>
    intro r hall
    rw [List.length_cons, List.cons_append, dropClass,
      if_pos (hall c (by simp))]
    exact ih r fun x hx => hall x (by simp [hx])

theorem dropSep_decomp (l : List Char) :
    ∃ s, SepOpt s ∧ l = s ++ dropSep l := by
  cases l with
  | nil => exact ⟨[], Or.inl rfl, rfl⟩
  | cons c rest =>
    by_cases hc : isSep c = true
    · exact ⟨[c], Or.inr ⟨c, rfl, hc⟩, by simp [dropSep, hc]⟩
    · exact ⟨[], Or.inl rfl, by simp [dropSep, hc]⟩

theorem digit_not_sep (c : Char) (h : isDigitC c = true) : isSep c = false := by
  by_contra hs
  simp only [Bool.not_eq_false] at hs
  rw [isSep, Bool.or_eq_true] at hs
  rcases hs with hs | hs
  · rw [decide_eq_true_iff] at hs
    subst hs
    exact absurd h (by decide)
  · rw [decide_eq_true_iff] at hs
    subst hs
    exact absurd h (by decide)

theorem dropSep_of_digit_head (d : List Char) (r : List Char) (hd : d ≠ [])
    (hall : AllP isDigitC d) : dropSep (d ++ r) = d ++ r := by
  cases d with
  | nil => exact absurd rfl hd
  | cons c d2 =>
    rw [List.cons_append, dropSep]
    rw [digit_not_sep c (hall c (by simp))]
    simp

theorem dropSep_of_sep_head (a : Char) (r : List Char) (ha : isSep a = true) :
    dropSep (a :: r) = r := by
  rw [dropSep, ha]
  simp

/-! ## Soundness and completeness of the phone matcher -/

theorem phoneCore_sound (l rem : List Char) (h : phoneCore l = some rem) :
    ∃ m, l = m ++ rem ∧ PhoneShape m := by
  rw [phoneCore] at h
  cases h1 : dropClass isDigitC 3 l with
  | none => rw [h1] at h; exact absurd h (by simp)
  | some r1 =>
    rw [h1] at h
    simp only [Option.some_bind] at h
    cases h2 : dropClass isDigitC 3 (dropSep r1) with
    | none => rw [h2] at h; exact absurd h (by simp)
    | some r3 =>
      rw [h2] at h
      simp only [Option.some_bind] at h
      cases h3 : dropClass isDigitC 4 (dropSep r3) with
      | none => rw [h3] at h; exact absurd h (by simp)
      | some r5 =>
        rw [h3] at h
        simp only [Option.some_bind, Option.some.injEq] at h
        subst h
        obtain ⟨d1, hl1, hlen1, hall1⟩ := dropClass_sound isDigitC 3 l r1 h1
        obtain ⟨s1, hs1, hsep1⟩ := dropSep_decomp r1
        obtain ⟨d2, hl2, hlen2, hall2⟩ := dropClass_sound isDigitC 3 _ r3 h2
        obtain ⟨s2, hs2, hsep2⟩ := dropSep_decomp r3
        obtain ⟨d3, hl3, hlen3, hall3⟩ := dropClass_sound isDigitC 4 _ _ h3
        refine ⟨d1 ++ (s1 ++ (d2 ++ (s2 ++ d3))), ?_,
          d1, s1, d2, s2, d3, rfl, hlen1, hlen2, hlen3, hall1, hall2, hall3, hs1, hs2⟩
        rw [hl1, hsep1, hl2, hsep2, hl3]
        simp

theorem phoneCore_complete (m rem : List Char) (h : PhoneShape m) :
    phoneCore (m ++ rem) = some rem := by
  obtain ⟨d1, s1, d2, s2, d3, rfl, hlen1, hlen2, hlen3, hall1, hall2, hall3, hs1, hs2⟩ := h
  rw [phoneCore]
  have e1 : dropClass isDigitC 3 ((d1 ++ (s1 ++ (d2 ++ (s2 ++ d3)))) ++ rem) =
      some (s1 ++ (d2 ++ (s2 ++ (d3 ++ rem)))) := by
    rw [← hlen1]
    have : (d1 ++ (s1 ++ (d2 ++ (s2 ++ d3)))) ++ rem =
        d1 ++ (s1 ++ (d2 ++ (s2 ++ (d3 ++ rem)))) := by simp
    rw [this]
    exact dropClass_complete isDigitC d1 _ hall1
  rw [e1]
  simp only [Option.some_bind]
  have hd2ne : d2 ≠ [] := by
    intro hh; rw [hh] at hlen2; simp at hlen2
  have e2 : dropSep (s1 ++ (d2 ++ (s2 ++ (d3 ++ rem)))) = d2 ++ (s2 ++ (d3 ++ rem)) := by
    rcases hs1 with rfl | ⟨a, rfl, ha⟩
    · rw [List.nil_append]
      exact dropSep_of_digit_head d2 _ hd2ne hall2
    · rw [List.cons_append, List.nil_append, dropSep_of_sep_head a _ ha]
  rw [e2]
  have e3 : dropClass isDigitC 3 (d2 ++ (s2 ++ (d3 ++ rem))) =
      some (s2 ++ (d3 ++ rem)) := by
    rw [← hlen2]
    exact dropClass_complete isDigitC d2 _ hall2
  rw [e3]
  simp only [Option.some_bind]
  have hd3ne : d3 ≠ [] := by
    intro hh; rw [hh] at hlen3; simp at hlen3
  have e4 : dropSep (s2 ++ (d3 ++ rem)) = d3 ++ rem := by
    rcases hs2 with rfl | ⟨a, rfl, ha⟩
    · rw [List.nil_append]
      exact dropSep_of_digit_head d3 _ hd3ne hall3
    · rw [List.cons_append, List.nil_append, dropSep_of_sep_head a _ ha]
  rw [e4]
  have e5 : dropClass isDigitC 4 (d3 ++ rem) = some rem := by
    rw [← hlen3]
    exact dropClass_complete isDigitC d3 _ hall3
  rw [e5]
  rfl

theorem phoneCore_headFail (c : Char) (rest : List Char) (h : isDigitC c = false) :
    phoneCore (c :: rest) = none := by
  rw [phoneCore]
  rw [show dropClass isDigitC 3 (c :: rest) = none from by rw [dropClass, h]; simp]
  rfl

theorem phoneMatch_headFail (pw : Bool) (c : Char) (rest : List Char)
    (h : isDigitC c = false) : phoneMatch pw c rest = none := by
  rw [phoneMatch, phoneCore_headFail c rest h]
  split <;> rfl

theorem phoneMatch_nobnd (pw : Bool) (c : Char) (rest : List Char)
    (h : bnd pw c = false) : phoneMatch pw c rest = none := by
  rw [phoneMatch, h]
  simp

theorem phoneMatch_sound (pw : Bool) (c : Char) (rest : List Char) (w : Bool)
    (rem : List Char) (h : phoneMatch pw c rest = some (w, rem)) :
    w = true ∧ bnd pw c = true ∧ tailBnd rem = true ∧
      ∃ m, c :: rest = m ++ rem ∧ PhoneShape m := by
  rw [phoneMatch] at h
  by_cases hb : bnd pw c = true
  · rw [if_pos hb] at h
    cases hc : phoneCore (c :: rest) with
    | none => rw [hc] at h; exact absurd h (by simp)
    | some rem0 =>
      rw [hc] at h
      by_cases ht : tailBnd rem0 = true
      · simp only [ht, if_true] at h
        injection h with h
        injection h with hw hr
        subst hw; subst hr
        exact ⟨rfl, hb, ht, phoneCore_sound _ _ hc⟩
      · simp only [ht, if_false, Bool.false_eq_true] at h
        exact absurd h (by simp)
  · rw [if_neg hb] at h
    exact absurd h (by simp)

theorem phoneMatch_complete (pw : Bool) (c : Char) (rest m rem : List Char)
    (hb : bnd pw c = true) (hd : c :: rest = m ++ rem) (hs : PhoneShape m)
    (ht : tailBnd rem = true) : phoneMatch pw c rest = some (true, rem) := by
  rw [phoneMatch, if_pos hb, hd, phoneCore_complete m rem hs]
  simp [ht]

end Medview

namespace Medview

/-! ## Soundness and completeness of the SSN matcher -/

theorem dropLit_sound (ch : Char) (l r : List Char) (h : dropLit ch l = some r) :
    l = ch :: r := by
  cases l with
  | nil => exact absurd h (by rw [dropLit]; simp)
  | cons c l2 =>
    rw [dropLit] at h
    by_cases hc : c = ch
    · rw [if_pos hc] at h
      injection h with h
      rw [hc, h]
    · rw [if_neg hc] at h
      exact absurd h (by simp)

theorem dropLit_complete (ch : Char) (r : List Char) : dropLit ch (ch :: r) = some r := by
  rw [dropLit]
  simp

theorem ssnCore_sound (l rem : List Char) (h : ssnCore l = some rem) :
    ∃ m, l = m ++ rem ∧ SsnShape m := by
  rw [ssnCore] at h
  cases h1 : dropClass isDigitC 3 l with
  | none => rw [h1] at h; exact absurd h (by simp)
  | some r1 =>
    rw [h1] at h
    simp only [Option.some_bind] at h
    cases h2 : dropLit '-' r1 with
    | none => rw [h2] at h; exact absurd h (by simp)
    | some r2 =>
      rw [h2] at h
      simp only [Option.some_bind] at h
      cases h3 : dropClass isDigitC 2 r2 with
      | none => rw [h3] at h; exact absurd h (by simp)
      | some r3 =>
        rw [h3] at h
        simp only [Option.some_bind] at h
        cases h4 : dropLit '-' r3 with
        | none => rw [h4] at h; exact absurd h (by simp)
        | some r4 =>
          rw [h4] at h
          simp only [Option.some_bind] at h
          cases h5 : dropClass isDigitC 4 r4 with
          | none => rw [h5] at h; exact absurd h (by simp)
          | some r5 =>
            rw [h5] at h
            simp only [Option.some_bind, Option.some.injEq] at h
            subst h
            obtain ⟨d1, hl1, hlen1, hall1⟩ := dropClass_sound isDigitC 3 l r1 h1
            have hlit1 := dropLit_sound '-' r1 r2 h2
            obtain ⟨d2, hl2, hlen2, hall2⟩ := dropClass_sound isDigitC 2 r2 r3 h3
            have hlit2 := dropLit_sound '-' r3 r4 h4
            obtain ⟨d3, hl3, hlen3, hall3⟩ := dropClass_sound isDigitC 4 r4 _ h5
            refine ⟨d1 ++ ('-' :: (d2 ++ ('-' :: d3))), ?_,
              d1, d2, d3, rfl, hlen1, hlen2, hlen3, hall1, hall2, hall3⟩
            rw [hl1, hlit1, hl2, hlit2, hl3]
            simp

theorem ssnCore_complete (m rem : List Char) (h : SsnShape m) :
    ssnCore (m ++ rem) = some rem := by
  obtain ⟨d1, d2, d3, rfl, hlen1, hlen2, hlen3, hall1, hall2, hall3⟩ := h
  rw [ssnCore]
  have e1 : dropClass isDigitC 3 ((d1 ++ ('-' :: (d2 ++ ('-' :: d3)))) ++ rem) =
      some ('-' :: (d2 ++ ('-' :: (d3 ++ rem)))) := by
    rw [← hlen1]
    have : (d1 ++ ('-' :: (d2 ++ ('-' :: d3)))) ++ rem =
        d1 ++ ('-' :: (d2 ++ ('-' :: (d3 ++ rem)))) := by simp
    rw [this]
    exact dropClass_complete isDigitC d1 _ hall1
  rw [e1]
  simp only [Option.some_bind]
  rw [dropLit_complete]
  simp only [Option.some_bind]
  have e2 : dropClass isDigitC 2 (d2 ++ ('-' :: (d3 ++ rem))) =
      some ('-' :: (d3 ++ rem)) := by
    rw [← hlen2]
    exact dropClass_complete isDigitC d2 _ hall2
  rw [e2]
  simp only [Option.some_bind]
  rw [dropLit_complete]
  simp only [Option.some_bind]
  have e3 : dropClass isDigitC 4 (d3 ++ rem) = some rem := by
    rw [← hlen3]
    exact dropClass_complete isDigitC d3 _ hall3
  rw [e3]
  rfl

theorem ssnCore_headFail (c : Char) (rest : List Char) (h : isDigitC c = false) :
    ssnCore (c :: rest) = none := by
  rw [ssnCore]
  rw [show dropClass isDigitC 3 (c :: rest) = none from by rw [dropClass, h]; simp]
  rfl

theorem ssnMatch_headFail (pw : Bool) (c : Char) (rest : List Char)
    (h : isDigitC c = false) : ssnMatch pw c rest = none := by
  rw [ssnMatch, ssnCore_headFail c rest h]
  split <;> rfl

theorem ssnMatch_nobnd (pw : Bool) (c : Char) (rest : List Char)
    (h : bnd pw c = false) : ssnMatch pw c rest = none := by
  rw [ssnMatch, h]
  simp

theorem ssnMatch_sound (pw : Bool) (c : Char) (rest : List Char) (w : Bool)
    (rem : List Char) (h : ssnMatch pw c rest = some (w, rem)) :
    w = true ∧ bnd pw c = true ∧ tailBnd rem = true ∧
      ∃ m, c :: rest = m ++ rem ∧ SsnShape m := by
  rw [ssnMatch] at h
  by_cases hb : bnd pw c = true
  · rw [if_pos hb] at h
    cases hc : ssnCore (c :: rest) with
    | none => rw [hc] at h; exact absurd h (by simp)
    | some rem0 =>
      rw [hc] at h
      by_cases ht : tailBnd rem0 = true
      · simp only [ht, if_true] at h
        injection h with h
        injection h with hw hr
        subst hw; subst hr
        exact ⟨rfl, hb, ht, ssnCore_sound _ _ hc⟩
      · simp only [ht, if_false, Bool.false_eq_true] at h
        exact absurd h (by simp)
  · rw [if_neg hb] at h
    exact absurd h (by simp)

theorem ssnMatch_complete (pw : Bool) (c : Char) (rest m rem : List Char)
    (hb : bnd pw c = true) (hd : c :: rest = m ++ rem) (hs : SsnShape m)
    (ht : tailBnd rem = true) : ssnMatch pw c rest = some (true, rem) := by
  rw [ssnMatch, if_pos hb, hd, ssnCore_complete m rem hs]
  simp [ht]

/-! ## Structural facts about the matched shapes -/

theorem PhoneShape_chars (m : List Char) (h : PhoneShape m) :
    ∀ x ∈ m, isDigitC x = true ∨ isSep x = true := by
  obtain ⟨d1, s1, d2, s2, d3, rfl, _, _, _, hall1, hall2, hall3, hs1, hs2⟩ := h
  intro x hx
  simp only [List.mem_append] at hx
  rcases hx with hx | hx | hx | hx | hx
  · exact Or.inl (hall1 x hx)
  · rcases hs1 with rfl | ⟨a, rfl, ha⟩
    · simp at hx
    · simp only [List.mem_singleton] at hx
      subst hx
      exact Or.inr ha
  · exact Or.inl (hall2 x hx)
  · rcases hs2 with rfl | ⟨a, rfl, ha⟩
    · simp at hx
    · simp only [List.mem_singleton] at hx
      subst hx
      exact Or.inr ha
  · exact Or.inl (hall3 x hx)

theorem PhoneShape_getLast (m : List Char) (h : PhoneShape m) :
    ∃ d, m.getLast? = some d ∧ isDigitC d = true := by
  obtain ⟨d1, s1, d2, s2, d3, rfl, _, _, hlen3, _, _, hall3, _, _⟩ := h
  have hd3 : d3 ≠ [] := by intro hh; rw [hh] at hlen3; simp at hlen3
  have : (d1 ++ (s1 ++ (d2 ++ (s2 ++ d3)))).getLast? = d3.getLast? := by
    rw [List.getLast?_append_of_ne_nil _ (by simp [hd3]),
      List.getLast?_append_of_ne_nil _ (by simp [hd3]),
      List.getLast?_append_of_ne_nil _ (by simp [hd3]),
      List.getLast?_append_of_ne_nil _ hd3]
  rw [this]
  cases hlast : d3.getLast? with
  | none => rw [List.getLast?_eq_none_iff] at hlast; exact absurd hlast hd3
  | some d =>
    exact ⟨d, rfl, hall3 d (List.mem_of_getLast?_eq_some hlast)⟩

theorem PhoneShape_ne_nil (m : List Char) (h : PhoneShape m) : m ≠ [] := by
  obtain ⟨d1, s1, d2, s2, d3, rfl, hlen1, _, _, _, _, _, _, _⟩ := h
  intro hh
  have h0 := congrArg List.length hh
  simp only [List.length_append, List.length_nil] at h0
  omega

theorem SsnShape_chars (m : List Char) (h : SsnShape m) :
    ∀ x ∈ m, isDigitC x = true ∨ isSep x = true := by
  obtain ⟨d1, d2, d3, rfl, _, _, _, hall1, hall2, hall3⟩ := h
  intro x hx
  simp only [List.mem_append, List.mem_cons] at hx
  rcases hx with hx | rfl | hx | rfl | hx
  · exact Or.inl (hall1 x hx)
  · exact Or.inr (by rw [isSep]; simp)
  · exact Or.inl (hall2 x hx)
  · exact Or.inr (by rw [isSep]; simp)
  · exact Or.inl (hall3 x hx)

theorem SsnShape_getLast (m : List Char) (h : SsnShape m) :
    ∃ d, m.getLast? = some d ∧ isDigitC d = true := by
  obtain ⟨d1, d2, d3, rfl, _, _, hlen3, _, _, hall3⟩ := h
  have hd3 : d3 ≠ [] := by intro hh; rw [hh] at hlen3; simp at hlen3
  have : (d1 ++ ('-' :: (d2 ++ ('-' :: d3)))).getLast? = d3.getLast? := by
    rw [List.getLast?_append_of_ne_nil _ (by simp [hd3]),
      show ('-' :: (d2 ++ '-' :: d3)) = ['-'] ++ (d2 ++ '-' :: d3) from rfl,
      List.getLast?_append_of_ne_nil _ (by simp [hd3]),
      List.getLast?_append_of_ne_nil _ (by simp [hd3]),
      show ('-' :: d3) = ['-'] ++ d3 from rfl,
      List.getLast?_append_of_ne_nil _ hd3]
  rw [this]
  cases hlast : d3.getLast? with
  | none => rw [List.getLast?_eq_none_iff] at hlast; exact absurd hlast hd3
  | some d =>
    exact ⟨d, rfl, hall3 d (List.mem_of_getLast?_eq_some hlast)⟩

theorem SsnShape_ne_nil (m : List Char) (h : SsnShape m) : m ≠ [] := by
  obtain ⟨d1, d2, d3, rfl, hlen1, _, _, _, _, _⟩ := h
  intro hh
  have h0 := congrArg List.length hh
  simp only [List.length_append, List.length_cons, List.length_nil] at h0
  omega

end Medview

namespace Medview

/-! ## Truncation at a replacement start

A match of any of the three patterns never contains the bracket character,
so if a pattern fails at some position of the original text, it also fails
there after the text from the first later match on is replaced by
placeholder text starting with a bracket. The word boundary that the later
match required makes the two trailing-boundary contexts agree. -/

theorem split_at_bracket (c : Char) (u z m rem2 : List Char)
    (hdec : c :: (u ++ '[' :: z) = m ++ rem2)
    (hnb : '[' ∉ m) :
    ∃ u0, c :: u = m ++ u0 ∧ rem2 = u0 ++ '[' :: z := by
  have hdec2 : (c :: u) ++ ('[' :: z) = m ++ rem2 := by simpa using hdec
  rcases List.append_eq_append_iff.mp hdec2 with ⟨a2, ha1, ha2⟩ | ⟨c2, hc1, hc2⟩
  · cases a2 with
    | nil =>
      refine ⟨[], ?_, ?_⟩
      · rw [ha1]; simp
      · rw [List.nil_append] at ha2
        rw [← ha2]
        simp
    | cons x a3 =>
      have hx : x = '[' := by
        have := ha2
        rw [List.cons_append] at this
        injection this with h1 _
        exact h1.symm
      subst hx
      exact absurd (by rw [ha1]; simp) hnb
  · exact ⟨c2, hc1, hc2⟩

theorem digit_isWord (d : Char) (h : isDigitC d = true) : isWordChar d = true := by
  rw [isDigitC] at h
  rw [isWordChar]
  simp only [h]
  simp

theorem bnd_true_elim (a : Char) (h : bnd true a = true) : isWordChar a = false := by
  rw [bnd] at h
  cases hia : isWordChar a
  · rfl
  · rw [hia] at h
    exact absurd h (by simp)

theorem phoneMatch_none_truncate (pw : Bool) (c : Char) (u : List Char) (a : Char)
    (v z : List Char)
    (hnone : phoneMatch pw c (u ++ a :: v) = none)
    (hb : bnd (lastPW u (isWordChar c)) a = true) :
    phoneMatch pw c (u ++ '[' :: z) = none := by
  cases hmz : phoneMatch pw c (u ++ '[' :: z) with
  | none => rfl
  | some x =>
    exfalso
    obtain ⟨w, rem2⟩ := x
    obtain ⟨hw, hbnd, htail, m, hdec, hshape⟩ :=
      phoneMatch_sound pw c (u ++ '[' :: z) w rem2 hmz
    have hnb : '[' ∉ m := by
      intro hmem
      rcases PhoneShape_chars m hshape '[' hmem with hd | hs
      · exact absurd hd (by decide)
      · exact absurd hs (by decide)
    obtain ⟨u0, hu0, hrem2⟩ := split_at_bracket c u z m rem2 hdec hnb
    have hdecv : c :: (u ++ a :: v) = m ++ (u0 ++ a :: v) := by
      have h2 : (c :: u) ++ (a :: v) = (m ++ u0) ++ (a :: v) := by rw [hu0]
      simpa using h2
    have htailv : tailBnd (u0 ++ a :: v) = true := by
      cases u0 with
      | nil =>
        rw [List.append_nil] at hu0
        have hlast : lastPW u (isWordChar c) = true := by
          rw [lastPW_getLast, hu0]
          obtain ⟨d, hd1, hd2⟩ := PhoneShape_getLast m hshape
          rw [hd1]
          exact digit_isWord d hd2
        rw [hlast] at hb
        rw [List.nil_append, tailBnd, bnd_true_elim a hb]
        rfl
      | cons h t =>
        rw [hrem2] at htail
        rw [List.cons_append] at htail ⊢
        rw [tailBnd] at htail ⊢
        exact htail
    exact absurd (phoneMatch_complete pw c (u ++ a :: v) m (u0 ++ a :: v) hbnd hdecv
      hshape htailv) (by rw [hnone]; simp)

theorem ssnMatch_none_truncate (pw : Bool) (c : Char) (u : List Char) (a : Char)
    (v z : List Char)
    (hnone : ssnMatch pw c (u ++ a :: v) = none)
    (hb : bnd (lastPW u (isWordChar c)) a = true) :
    ssnMatch pw c (u ++ '[' :: z) = none := by
  cases hmz : ssnMatch pw c (u ++ '[' :: z) with
  | none => rfl
  | some x =>
    exfalso
    obtain ⟨w, rem2⟩ := x
    obtain ⟨hw, hbnd, htail, m, hdec, hshape⟩ :=
      ssnMatch_sound pw c (u ++ '[' :: z) w rem2 hmz
    have hnb : '[' ∉ m := by
      intro hmem
      rcases SsnShape_chars m hshape '[' hmem with hd | hs
      · exact absurd hd (by decide)
      · exact absurd hs (by decide)
    obtain ⟨u0, hu0, hrem2⟩ := split_at_bracket c u z m rem2 hdec hnb
    have hdecv : c :: (u ++ a :: v) = m ++ (u0 ++ a :: v) := by
      have h2 : (c :: u) ++ (a :: v) = (m ++ u0) ++ (a :: v) := by rw [hu0]
      simpa using h2
    have htailv : tailBnd (u0 ++ a :: v) = true := by
      cases u0 with
      | nil =>
        rw [List.append_nil] at hu0
        have hlast : lastPW u (isWordChar c) = true := by
          rw [lastPW_getLast, hu0]
          obtain ⟨d, hd1, hd2⟩ := SsnShape_getLast m hshape
          rw [hd1]
          exact digit_isWord d hd2
        rw [hlast] at hb
        rw [List.nil_append, tailBnd, bnd_true_elim a hb]
        rfl
      | cons h t =>
        rw [hrem2] at htail
        rw [List.cons_append] at htail ⊢
        rw [tailBnd] at htail ⊢
        exact htail
    exact absurd (ssnMatch_complete pw c (u ++ a :: v) m (u0 ++ a :: v) hbnd hdecv
      hshape htailv) (by rw [hnone]; simp)

end Medview

namespace Medview

/-! ## Lemmas about greedy runs and the backtracking searches -/

theorem countWhile_le (p : Char → Bool) : ∀ l : List Char, countWhile p l ≤ l.length := by
  intro l
  induction l with
  | nil => simp [countWhile]
  | cons c l2 ih =>
    rw [countWhile]
    by_cases hp : p c = true
    · rw [if_pos hp]; simp; omega
    · rw [if_neg hp]; simp

theorem countWhile_take (p : Char → Bool) :
    ∀ (l : List Char) (k : Nat), k ≤ countWhile p l → AllP p (l.take k) := by
  intro l
  induction l with
  | nil =>
    intro k hk
    simp [countWhile] at hk
    subst hk
    intro x hx
    simp at hx
  | cons c l2 ih =>
    intro k hk
    rw [countWhile] at hk
    by_cases hp : p c = true
    · rw [if_pos hp] at hk
      cases k with
      | zero => intro x hx; simp at hx
      | succ j =>
        rw [List.take_succ_cons]
        intro x hx
        rcases List.mem_cons.mp hx with rfl | hx2
        · exact hp
        · exact ih j (by omega) x hx2
    · rw [if_neg hp] at hk
      have : k = 0 := by omega
      subst this
      intro x hx
      simp at hx

theorem countWhile_append_stop (p : Char → Bool) (s : Char) (hs : p s = false) :
    ∀ (m z : List Char), AllP p m → countWhile p (m ++ s :: z) = m.length := by
  intro m
  induction m with
  | nil => intro z _; rw [List.nil_append, countWhile, hs]; simp
  | cons c m2 ih =>
    intro z hall
    rw [List.cons_append, countWhile, if_pos (hall c (by simp)),
      ih z (fun x hx => hall x (by simp [hx]))]
    simp

theorem countWhile_ge (p : Char → Bool) :
    ∀ (m r : List Char), AllP p m → m.length ≤ countWhile p (m ++ r) := by
  intro m
  induction m with
  | nil => intro r _; simp
  | cons c m2 ih =>
    intro r hall
    rw [List.cons_append, countWhile, if_pos (hall c (by simp))]
    have := ih r (fun x hx => hall x (by simp [hx]))
    simp only [List.length_cons]
    omega

theorem get?_append_offset : ∀ (xs ys : List Char) (n : Nat),
    (xs ++ ys).get? (xs.length + n) = ys.get? n := by
  intro xs
  induction xs with
  | nil => intro ys n; simp
  | cons x xs2 ih =>
    intro ys n
    rw [List.cons_append, List.length_cons]
    rw [show xs2.length + 1 + n = (xs2.length + n) + 1 from by omega]
    rw [List.get?_cons_succ]
    exact ih ys n

theorem get?_append_length (xs : List Char) (y : Char) (ys : List Char) :
    (xs ++ y :: ys).get? xs.length = some y := by
  have := get?_append_offset xs (y :: ys) 0
  simpa using this

theorem head?_eq_get?_zero (l : List Char) : l.head? = l.get? 0 := by
  cases l <;> rfl

theorem get?_append_head (xs ys : List Char) :
    (xs ++ ys).get? xs.length = ys.head? := by
  have := get?_append_offset xs ys 0
  rw [head?_eq_get?_zero]
  simpa using this

theorem getLast?_eq_get? : ∀ (l : List Char), l ≠ [] →
    l.getLast? = l.get? (l.length - 1) := by
  intro l
  induction l with
  | nil => intro h; exact absurd rfl h
  | cons c t ih =>
    intro _
    cases t with
    | nil => rfl
    | cons d t2 =>
      rw [List.getLast?_cons_cons, ih (by simp)]
      rw [show (c :: d :: t2).length - 1 = (d :: t2).length - 1 + 1 from by simp,
        List.get?_cons_succ]

theorem tldSearch_sound (aft : List Char) :
    ∀ (f : Nat) (w : Bool) (t : Nat), tldSearch aft f = some (w, t) →
      2 ≤ t ∧ t ≤ f ∧ ∃ lc, aft.get? (t - 1) = some lc ∧ w = isWordChar lc ∧
        (isWordChar lc != isWordOpt (aft.get? t)) = true := by
  intro f
  induction f with
  | zero => intro w t h; exact absurd h (by rw [tldSearch]; simp)
  | succ f ih =>
    intro w t h
    rw [tldSearch] at h
    by_cases h2 : f + 1 < 2
    · rw [if_pos h2] at h
      exact absurd h (by simp)
    · rw [if_neg h2] at h
      split at h
      next lc hg =>
        split at h
        next hbd =>
          injection h with h
          injection h with hw ht
          subst ht
          refine ⟨by omega, le_rfl, lc, by simpa using hg, hw.symm, hbd⟩
        next hbd =>
          obtain ⟨ha, hb2, hc⟩ := ih w t h
          exact ⟨ha, by omega, hc⟩
      next hg =>
        obtain ⟨ha, hb2, hc⟩ := ih w t h
        exact ⟨ha, by omega, hc⟩

theorem tldSearch_complete (aft : List Char) :
    ∀ (f t : Nat) (lc : Char), 2 ≤ t → t ≤ f →
      aft.get? (t - 1) = some lc →
      (isWordChar lc != isWordOpt (aft.get? t)) = true →
      (tldSearch aft f).isSome = true := by
  intro f
  induction f with
  | zero => intro t lc h2 hf _ _; omega
  | succ f ih =>
    intro t lc h2 hf hg hbd
    rw [tldSearch]
    rw [if_neg (by omega)]
    cases hg2 : aft.get? f with
    | some lc2 =>
      simp only [hg2]
      by_cases hbd2 : (isWordChar lc2 != isWordOpt (aft.get? (f + 1))) = true
      · rw [if_pos hbd2]; rfl
      · rw [if_neg hbd2]
        have hne : t ≠ f + 1 := by
          intro hh
          subst hh
          rw [show f + 1 - 1 = f from by omega] at hg
          rw [hg2] at hg
          injection hg with hg
          subst hg
          exact hbd2 hbd
        exact ih t lc h2 (by omega) hg hbd
    | none =>
      simp only [hg2]
      have hne : t ≠ f + 1 := by
        intro hh
        subst hh
        rw [show f + 1 - 1 = f from by omega] at hg
        rw [hg2] at hg
        exact absurd hg (by simp)
      exact ih t lc h2 (by omega) hg hbd

end Medview

namespace Medview

theorem domSearch_sound (D : List Char) :
    ∀ (f k : Nat) (w : Bool) (t : Nat), domSearch D f = some (k, w, t) →
      1 ≤ k ∧ k ≤ f ∧ D.get? k = some '.' ∧
        tldSearch (D.drop (k + 1)) (countWhile tldClass (D.drop (k + 1))) = some (w, t) := by
  intro f
  induction f with
  | zero => intro k w t h; exact absurd h (by rw [domSearch]; simp)
  | succ f ih =>
    intro k w t h
    rw [domSearch] at h
    split at h
    next hdot =>
      split at h
      next w2 t2 htld =>
        injection h with h
        injection h with h1 h
        injection h with h2 h3
        subst h1
        subst h2
        subst h3
        exact ⟨by omega, le_rfl, hdot, htld⟩
      next htld =>
        obtain ⟨ha, hb, hc⟩ := ih k w t h
        exact ⟨ha, by omega, hc⟩
    next hdot =>
      obtain ⟨ha, hb, hc⟩ := ih k w t h
      exact ⟨ha, by omega, hc⟩

theorem domSearch_complete (D : List Char) :
    ∀ (f k : Nat), 1 ≤ k → k ≤ f → D.get? k = some '.' →
      (tldSearch (D.drop (k + 1)) (countWhile tldClass (D.drop (k + 1)))).isSome = true →
      (domSearch D f).isSome = true := by
  intro f
  induction f with
  | zero => intro k h1 hf _ _; omega
  | succ f ih =>
    intro k h1 hf hdot htld
    rw [domSearch]
    by_cases hdot2 : D.get? (f + 1) = some '.'
    · rw [if_pos hdot2]
      cases htld2 : tldSearch (D.drop (f + 2)) (countWhile tldClass (D.drop (f + 2))) with
      | some x =>
        obtain ⟨w2, t2⟩ := x
        simp only [htld2]
        rfl
      | none =>
        simp only [htld2]
        have hne : k ≠ f + 1 := by
          intro hh
          subst hh
          rw [show f + 1 + 1 = f + 2 from by omega] at htld
          rw [htld2] at htld
          exact absurd htld (by simp)
        exact ih k h1 (by omega) hdot htld
    · rw [if_neg hdot2]
      have hne : k ≠ f + 1 := by
        intro hh
        subst hh
        exact hdot2 hdot
      exact ih k h1 (by omega) hdot htld

end Medview

namespace Medview

/-! ## More positional list helpers -/

theorem drop_head?_eq_get? : ∀ (n : Nat) (l : List Char), (l.drop n).head? = l.get? n := by
  intro n
  induction n with
  | zero => intro l; rw [List.drop_zero, head?_eq_get?_zero]
  | succ n ih =>
    intro l
    cases l with
    | nil => rfl
    | cons c t =>
      rw [List.drop_succ_cons, List.get?_cons_succ]
      exact ih t

theorem decomp_at_get? (l : List Char) (n : Nat) (x : Char) (h : l.get? n = some x) :
    l = l.take n ++ x :: l.drop (n + 1) := by
  rw [List.get?_eq_getElem?] at h
  obtain ⟨hn, hx⟩ := List.getElem?_eq_some_iff.mp h
  conv_lhs => rw [← List.take_append_drop n l]
  rw [List.drop_eq_getElem_cons hn, hx]

theorem take_getLast? (l : List Char) (n : Nat) (x : Char) (h : l.get? n = some x) :
    (l.take (n + 1)).getLast? = some x := by
  rw [List.take_succ]
  rw [List.get?_eq_getElem?] at h
  rw [h]
  rw [show (some x).toList = [x] from rfl]
  rw [List.getLast?_append_of_ne_nil _ (by simp)]
  rfl

theorem drop_append_cons (xs : List Char) (y : Char) (ys : List Char) :
    (xs ++ y :: ys).drop (xs.length + 1) = ys := by
  rw [show xs ++ y :: ys = (xs ++ [y]) ++ ys from by simp,
    show xs.length + 1 = (xs ++ [y]).length from by simp]
  exact List.drop_left _ _

/-! ## Soundness and completeness of the email matcher -/

theorem emailMatch_sound (pw : Bool) (c : Char) (rest : List Char) (w : Bool)
    (rem : List Char) (h : emailMatch pw c rest = some (w, rem)) :
    bnd pw c = true ∧
    ∃ loc dom tld, c :: rest = loc ++ '@' :: (dom ++ ('.' :: (tld ++ rem))) ∧
      loc ≠ [] ∧ AllP localClass loc ∧ dom ≠ [] ∧ AllP domainClass dom ∧
      2 ≤ tld.length ∧ AllP tldClass tld ∧
      ∃ lc, tld.getLast? = some lc ∧ w = isWordChar lc ∧
        (isWordChar lc != isWordOpt rem.head?) = true := by
  rw [emailMatch] at h
  by_cases hb : bnd pw c = true
  case neg => rw [if_neg hb] at h; exact absurd h (by simp)
  rw [if_pos hb] at h
  refine ⟨hb, ?_⟩
  simp only [] at h
  by_cases hL : countWhile localClass (c :: rest) = 0
  · rw [if_pos hL] at h; exact absurd h (by simp)
  rw [if_neg hL] at h
  split at h
  next D hdrop =>
    split at h
    next k w2 t hds =>
      injection h with h
      injection h with hw hrem
      obtain ⟨hk1, hk2, hdot, htld⟩ := domSearch_sound D _ k w2 t hds
      obtain ⟨ht2, htf, lc, hlc, hwlc, hbdry⟩ := tldSearch_sound _ _ w2 t htld
      have hLle : countWhile localClass (c :: rest) ≤ (c :: rest).length :=
        countWhile_le localClass (c :: rest)
      have hrem2 : rem = (D.drop (k + 1)).drop t := by
        rw [List.drop_drop, ← hrem]
      refine ⟨(c :: rest).take (countWhile localClass (c :: rest)),
        D.take k, (D.drop (k + 1)).take t, ?_, ?_, ?_, ?_, ?_, ?_, ?_, lc, ?_, ?_, ?_⟩
      · -- decomposition
        conv_lhs => rw [← List.take_append_drop (countWhile localClass (c :: rest)) (c :: rest)]
        rw [hdrop, hrem2, List.take_append_drop t (D.drop (k + 1))]
        conv_lhs => rw [decomp_at_get? D k '.' hdot]
      · -- loc ≠ []
        intro hh
        have := congrArg List.length hh
        rw [List.length_take] at this
        simp only [List.length_nil] at this
        omega
      · exact countWhile_take localClass (c :: rest) _ le_rfl
      · -- dom ≠ []
        intro hh
        have hklt : k < D.length := by
          rw [List.get?_eq_getElem?] at hdot
          exact (List.getElem?_eq_some_iff.mp hdot).1
        have := congrArg List.length hh
        rw [List.length_take] at this
        simp only [List.length_nil] at this
        omega
      · exact countWhile_take domainClass D k hk2
      · -- 2 ≤ tld.length
        have htle : t - 1 < (D.drop (k + 1)).length := by
          rw [List.get?_eq_getElem?] at hlc
          exact (List.getElem?_eq_some_iff.mp hlc).1
        rw [List.length_take]
        omega
      · exact countWhile_take tldClass (D.drop (k + 1)) t htf
      · -- getLast? of tld
        rw [show t = (t - 1) + 1 from by omega]
        exact take_getLast? (D.drop (k + 1)) (t - 1) lc hlc
      · rw [← hw, hwlc]
      · -- boundary
        rw [hrem2, drop_head?_eq_get?]
        exact hbdry
    next hds => exact absurd h (by simp)
  next x hx => exact absurd h (by simp)

theorem emailMatch_complete (pw : Bool) (c : Char) (rest loc dom tld rem0 : List Char)
    (hb : bnd pw c = true)
    (hdec : c :: rest = loc ++ '@' :: (dom ++ ('.' :: (tld ++ rem0))))
    (hlocne : loc ≠ []) (hlocall : AllP localClass loc)
    (hdomne : dom ≠ []) (hdomall : AllP domainClass dom)
    (htldlen : 2 ≤ tld.length) (htldall : AllP tldClass tld)
    (hbdry : ∃ lc, tld.getLast? = some lc ∧
      (isWordChar lc != isWordOpt rem0.head?) = true) :
    (emailMatch pw c rest).isSome = true := by
  obtain ⟨lc, hlast, hbd⟩ := hbdry
  have hL : countWhile localClass (c :: rest) = loc.length := by
    rw [hdec]
    exact countWhile_append_stop localClass '@' (by decide) loc _ hlocall
  have hLne : ¬ countWhile localClass (c :: rest) = 0 := by
    rw [hL]
    simpa [List.length_eq_zero] using hlocne
  have hdrop : (c :: rest).drop (countWhile localClass (c :: rest)) =
      '@' :: (dom ++ ('.' :: (tld ++ rem0))) := by
    rw [hL, hdec]
    exact List.drop_left _ _
  rw [emailMatch, if_pos hb]
  simp only []
  rw [if_neg hLne, hdrop]
  have htldne : tld ≠ [] := by
    intro hh; rw [hh] at htldlen; simp at htldlen
  have hget : (tld ++ rem0).get? (tld.length - 1) = some lc := by
    rw [List.get?_eq_getElem?, List.getElem?_append_left (by
      have : 0 < tld.length := by omega
      omega)]
    rw [← List.get?_eq_getElem?, ← getLast?_eq_get? tld htldne]
    exact hlast
  have hbd2 : (isWordChar lc != isWordOpt ((tld ++ rem0).get? tld.length)) = true := by
    rw [get?_append_head]
    exact hbd
  have htldsome : (tldSearch ((dom ++ ('.' :: (tld ++ rem0))).drop (dom.length + 1))
      (countWhile tldClass ((dom ++ ('.' :: (tld ++ rem0))).drop (dom.length + 1)))).isSome
      = true := by
    rw [drop_append_cons]
    refine tldSearch_complete (tld ++ rem0) _ tld.length lc htldlen ?_ ?_ hbd2
    · exact countWhile_ge tldClass tld rem0 htldall
    · exact hget
  have hdotpos : (dom ++ ('.' :: (tld ++ rem0))).get? dom.length = some '.' :=
    get?_append_length dom '.' (tld ++ rem0)
  have hdomsome : (domSearch (dom ++ ('.' :: (tld ++ rem0)))
      (countWhile domainClass (dom ++ ('.' :: (tld ++ rem0))))).isSome = true := by
    refine domSearch_complete _ _ dom.length ?_ ?_ hdotpos htldsome
    · have : 0 < dom.length := by
        cases dom with
        | nil => exact absurd rfl hdomne
        | cons d dom2 => simp
      omega
    · exact countWhile_ge domainClass dom _ hdomall
  cases hds : domSearch (dom ++ ('.' :: (tld ++ rem0)))
      (countWhile domainClass (dom ++ ('.' :: (tld ++ rem0)))) with
  | some x =>
    obtain ⟨k2, w2, t2⟩ := x
    simp only [hds]
    rfl
  | none =>
    rw [hds] at hdomsome
    exact absurd hdomsome (by simp)

end Medview

namespace Medview

/-! ## Failure lemmas and truncation for the email matcher -/

theorem emailMatch_nobnd (pw : Bool) (c : Char) (rest : List Char)
    (h : bnd pw c = false) : emailMatch pw c rest = none := by
  rw [emailMatch, h]
  simp

theorem emailMatch_notlocal (pw : Bool) (c : Char) (rest : List Char)
    (h : localClass c = false) : emailMatch pw c rest = none := by
  rw [emailMatch]
  simp only []
  have hL : countWhile localClass (c :: rest) = 0 := by
    rw [countWhile, h]
    simp
  rw [hL]
  simp

theorem emailMatch_wordrun_fail (pw : Bool) (c : Char) (t : List Char) (s : Char)
    (zz : List Char) (hct : AllP localClass (c :: t)) (hs : localClass s = false)
    (hsa : s ≠ '@') : emailMatch pw c (t ++ s :: zz) = none := by
  cases hmz : emailMatch pw c (t ++ s :: zz) with
  | none => rfl
  | some x =>
    exfalso
    obtain ⟨w, rem⟩ := x
    obtain ⟨hbnd, loc, dom, tld, hdec, hlocne, hlocall, _, _, _, _, _, _, _, _⟩ :=
      emailMatch_sound pw c _ w rem hmz
    have h1 : countWhile localClass (c :: (t ++ s :: zz)) = (c :: t).length := by
      have := countWhile_append_stop localClass s hs (c :: t) zz hct
      simpa using this
    have h2 : countWhile localClass (c :: (t ++ s :: zz)) = loc.length := by
      rw [hdec]
      exact countWhile_append_stop localClass '@' (by decide) loc _ hlocall
    have hlen : loc.length = (c :: t).length := by rw [← h2, h1]
    have h3 : ((c :: t) ++ s :: zz).get? (c :: t).length = some s :=
      get?_append_length _ _ _
    have hdec2 : (c :: t) ++ s :: zz =
        loc ++ '@' :: (dom ++ ('.' :: (tld ++ rem))) := by
      rw [← hdec]
      simp
    rw [hdec2, ← hlen, get?_append_length] at h3
    injection h3 with h3
    exact hsa h3.symm

theorem emailMatch_none_truncate (pw : Bool) (c : Char) (u : List Char) (a : Char)
    (v z : List Char)
    (hnone : emailMatch pw c (u ++ a :: v) = none)
    (hb : bnd (lastPW u (isWordChar c)) a = true) :
    emailMatch pw c (u ++ '[' :: z) = none := by
  cases hmz : emailMatch pw c (u ++ '[' :: z) with
  | none => rfl
  | some x =>
    exfalso
    obtain ⟨w, rem2⟩ := x
    obtain ⟨hbnd, loc, dom, tld, hdec, hlocne, hlocall, hdomne, hdomall, htldlen,
      htldall, lc, hlast, hwlc, hbdry⟩ := emailMatch_sound pw c _ w rem2 hmz
    have htldne : tld ≠ [] := by
      intro hh; rw [hh] at htldlen; simp at htldlen
    have hdec2 : c :: (u ++ '[' :: z) = (loc ++ '@' :: (dom ++ '.' :: tld)) ++ rem2 := by
      rw [hdec]; simp
    have hnb : '[' ∉ loc ++ '@' :: (dom ++ '.' :: tld) := by
      intro hmem
      simp only [List.mem_append, List.mem_cons] at hmem
      rcases hmem with hm | hm | hm | hm | hm
      · exact absurd (hlocall '[' hm) (by decide)
      · exact absurd hm (by decide)
      · exact absurd (hdomall '[' hm) (by decide)
      · exact absurd hm (by decide)
      · exact absurd (htldall '[' hm) (by decide)
    obtain ⟨u0, hu0, hrem2⟩ := split_at_bracket c u z _ rem2 hdec2 hnb
    have hdecv : c :: (u ++ a :: v) = loc ++ '@' :: (dom ++ ('.' :: (tld ++ (u0 ++ a :: v)))) := by
      have h2 : (c :: u) ++ (a :: v) = ((loc ++ '@' :: (dom ++ '.' :: tld)) ++ u0) ++ (a :: v) := by
        rw [hu0]
      simp only [List.cons_append, List.nil_append, List.append_assoc] at h2 ⊢
      simpa using h2
    have hbdry2 : (isWordChar lc != isWordOpt ((u0 ++ a :: v).head?)) = true := by
      cases u0 with
      | nil =>
        rw [List.append_nil] at hu0
        rw [hrem2] at hbdry
        rw [List.nil_append] at hbdry ⊢
        have hlcw : isWordChar lc = true := by
          rw [show (('[' :: z : List Char)).head? = some '[' from rfl] at hbdry
          rw [show isWordOpt (some '[') = false from by decide] at hbdry
          simpa using hbdry
        have hlastm : lastPW u (isWordChar c) = true := by
          rw [lastPW_getLast, hu0]
          rw [List.getLast?_append_of_ne_nil _ (by simp),
            show ('@' :: (dom ++ '.' :: tld) : List Char) = ['@'] ++ (dom ++ '.' :: tld) from rfl,
            List.getLast?_append_of_ne_nil _ (by simp [htldne]),
            List.getLast?_append_of_ne_nil _ (by simp [htldne]),
            show ('.' :: tld : List Char) = ['.'] ++ tld from rfl,
            List.getLast?_append_of_ne_nil _ htldne, hlast]
          exact hlcw
        rw [hlastm] at hb
        rw [show ((a :: v : List Char)).head? = some a from rfl,
          show isWordOpt (some a) = isWordChar a from rfl,
          bnd_true_elim a hb, hlcw]
        rfl
      | cons h1 t1 =>
        rw [hrem2] at hbdry
        rw [List.cons_append] at hbdry ⊢
        rw [show ((h1 :: (t1 ++ '[' :: z) : List Char)).head? = some h1 from rfl] at hbdry
        rw [show ((h1 :: (t1 ++ a :: v) : List Char)).head? = some h1 from rfl]
        exact hbdry
    have := emailMatch_complete pw c (u ++ a :: v) loc dom tld (u0 ++ a :: v) hbnd hdecv
      hlocne hlocall hdomne hdomall htldlen htldall ⟨lc, hlast, hbdry2⟩
    rw [hnone] at this
    exact absurd this (by simp)

end Medview

namespace Medview

/-! ## Helpers shared by the main no-residual lemmas -/

theorem rem_len_le (c : Char) (rest m rem : List Char) (h : c :: rest = m ++ rem)
    (hne : m ≠ []) : rem.length ≤ rest.length := by
  have hl := congrArg List.length h
  simp only [List.length_cons, List.length_append] at hl
  have : 1 ≤ m.length := by
    cases m with
    | nil => exact absurd rfl hne
    | cons x m2 => simp
  omega

theorem lastPW_of_getLast? (m : List Char) (pw : Bool) (x : Char)
    (h : m.getLast? = some x) : lastPW m pw = isWordChar x := by
  rw [lastPW, h]

theorem email_m_getLast (loc dom tld : List Char) (lc : Char) (htldne : tld ≠ [])
    (hlast : tld.getLast? = some lc) :
    (loc ++ '@' :: (dom ++ '.' :: tld)).getLast? = some lc := by
  rw [List.getLast?_append_of_ne_nil _ (by simp),
    show ('@' :: (dom ++ '.' :: tld) : List Char) = ['@'] ++ (dom ++ '.' :: tld) from rfl,
    List.getLast?_append_of_ne_nil _ (by simp [htldne]),
    List.getLast?_append_of_ne_nil _ (by simp [htldne]),
    show ('.' :: tld : List Char) = ['.'] ++ tld from rfl,
    List.getLast?_append_of_ne_nil _ htldne, hlast]

/-- The head of a scanner output: empty, the bracket starting a replacement,
or the unchanged head of the input. -/
theorem scanR_head_cases (mm : Bool → Char → List Char → Option (Bool × List Char))
    (r2 : List Char) (pw : Bool) (l : List Char) :
    scanR mm ('[' :: r2) pw l = [] ∨
    (∃ t2, scanR mm ('[' :: r2) pw l = '[' :: t2) ∨
    (∃ h t2 t3, l = h :: t3 ∧ scanR mm ('[' :: r2) pw l = h :: t2) := by
  cases l with
  | nil => left; exact scanR_nil _ _ _
  | cons c rest =>
    cases hm : mm pw c rest with
    | some x =>
      obtain ⟨w, rem⟩ := x
      right; left
      refine ⟨r2 ++ scanR mm ('[' :: r2) w (rest.drop (rest.length - rem.length)), ?_⟩
      rw [scanR, hm]
      rfl
    | none =>
      right; right
      exact ⟨c, scanR mm ('[' :: r2) (isWordChar c) rest, rest, rfl,
        scanR_cons_none _ _ _ _ _ hm⟩

theorem phoneMatch_msplit (pw : Bool) (c : Char) (rest : List Char) (w : Bool)
    (rem : List Char) (h : phoneMatch pw c rest = some (w, rem)) :
    ∃ m, c :: rest = m ++ rem ∧ m ≠ [] := by
  obtain ⟨_, _, _, m, hd, hs⟩ := phoneMatch_sound pw c rest w rem h
  exact ⟨m, hd, PhoneShape_ne_nil m hs⟩

theorem ssnMatch_msplit (pw : Bool) (c : Char) (rest : List Char) (w : Bool)
    (rem : List Char) (h : ssnMatch pw c rest = some (w, rem)) :
    ∃ m, c :: rest = m ++ rem ∧ m ≠ [] := by
  obtain ⟨_, _, _, m, hd, hs⟩ := ssnMatch_sound pw c rest w rem h
  exact ⟨m, hd, SsnShape_ne_nil m hs⟩

theorem emailMatch_msplit (pw : Bool) (c : Char) (rest : List Char) (w : Bool)
    (rem : List Char) (h : emailMatch pw c rest = some (w, rem)) :
    ∃ m, c :: rest = m ++ rem ∧ m ≠ [] := by
  obtain ⟨_, loc, dom, tld, hd, hlocne, _⟩ := emailMatch_sound pw c rest w rem h
  refine ⟨loc ++ '@' :: (dom ++ '.' :: tld), by rw [hd]; simp, by simp⟩

theorem phoneMatch_bndreq (pw : Bool) (c : Char) (rest : List Char)
    (x : Bool × List Char) (h : phoneMatch pw c rest = some x) : bnd pw c = true := by
  obtain ⟨w, rem⟩ := x
  exact (phoneMatch_sound pw c rest w rem h).2.1

theorem ssnMatch_bndreq (pw : Bool) (c : Char) (rest : List Char)
    (x : Bool × List Char) (h : ssnMatch pw c rest = some x) : bnd pw c = true := by
  obtain ⟨w, rem⟩ := x
  exact (ssnMatch_sound pw c rest w rem h).2.1

theorem emailMatch_bndreq (pw : Bool) (c : Char) (rest : List Char)
    (x : Bool × List Char) (h : emailMatch pw c rest = some x) : bnd pw c = true := by
  obtain ⟨w, rem⟩ := x
  exact (emailMatch_sound pw c rest w rem h).1

/-! ## Scanning the placeholder texts finds no matches -/

theorem noScan_phone_through (r : List Char) (hnd : ∀ x ∈ r, isDigitC x = false)
    (hlast : ∀ pw, lastPW r pw = false) :
    ∀ (pw : Bool) (z : List Char),
      noScan phoneMatch pw (r ++ z) = noScan phoneMatch false z := by
  intro pw z
  rw [noScan_append_headfail phoneMatch r
    (fun x hx pw2 t => phoneMatch_headFail pw2 x t (hnd x hx)) pw z, hlast]

theorem noScan_ssn_through (r : List Char) (hnd : ∀ x ∈ r, isDigitC x = false)
    (hlast : ∀ pw, lastPW r pw = false) :
    ∀ (pw : Bool) (z : List Char),
      noScan ssnMatch pw (r ++ z) = noScan ssnMatch false z := by
  intro pw z
  rw [noScan_append_headfail ssnMatch r
    (fun x hx pw2 t => ssnMatch_headFail pw2 x t (hnd x hx)) pw z, hlast]

theorem noScan_email_localrun (m : List Char) (s : Char) (hm : AllP localClass m)
    (hs : localClass s = false) (hsa : s ≠ '@') :
    ∀ (pw : Bool) (z : List Char),
      noScan emailMatch pw (m ++ s :: z) = noScan emailMatch (isWordChar s) z := by
  induction m with
  | nil =>
    intro pw z
    rw [List.nil_append, noScan, emailMatch_notlocal pw s z hs]
    rfl
  | cons c m2 ih =>
    intro pw z
    rw [List.cons_append, noScan,
      emailMatch_wordrun_fail pw c m2 s z
        (fun x hx => by
          rcases List.mem_cons.mp hx with rfl | hx2
          · exact hm x (by simp)
          · exact hm x (by simp [hx2]))
        hs hsa,
      ih (fun x hx => hm x (by simp [hx])) (isWordChar c) z]
    rfl

theorem noScan_email_EMAIL_REPL (pw : Bool) (z : List Char) :
    noScan emailMatch pw (EMAIL_REPL ++ z) = noScan emailMatch false z := by
  show noScan emailMatch pw
    ('[' :: ("EMAIL".data ++ ' ' :: ("REDACTED".data ++ ']' :: z))) = _
  rw [noScan, emailMatch_notlocal pw '[' _ (by decide),
    noScan_email_localrun "EMAIL".data ' ' (by unfold AllP; decide) (by decide) (by decide),
    noScan_email_localrun "REDACTED".data ']' (by unfold AllP; decide) (by decide) (by decide),
    show isWordChar ']' = false from by decide]
  rfl

theorem noScan_email_SSN_REPL (pw : Bool) (z : List Char) :
    noScan emailMatch pw (SSN_REPL ++ z) = noScan emailMatch false z := by
  show noScan emailMatch pw
    ('[' :: ("SSN".data ++ ' ' :: ("REDACTED".data ++ ']' :: z))) = _
  rw [noScan, emailMatch_notlocal pw '[' _ (by decide),
    noScan_email_localrun "SSN".data ' ' (by unfold AllP; decide) (by decide) (by decide),
    noScan_email_localrun "REDACTED".data ']' (by unfold AllP; decide) (by decide) (by decide),
    show isWordChar ']' = false from by decide]
  rfl

end Medview

namespace Medview

/-! ## Main no-residual lemmas: after each replacement stage the output
admits no further matches of the corresponding pattern, and the later
stages preserve that. -/

theorem noScan_phone_self_fuel (n : Nat) :
    ∀ (l : List Char) (pw : Bool), l.length ≤ n →
      noScan phoneMatch pw (scanR phoneMatch PHONE_REPL pw l) = true := by
  induction n with
  | zero =>
    intro l pw hlen
    have hnil : l = [] := by
      cases l with
      | nil => rfl
      | cons c r => simp at hlen
    subst hnil
    rw [scanR_nil]
    rfl
  | succ n ih =>
    intro l pw hlen
    cases l with
    | nil => rw [scanR_nil]; rfl
    | cons c rest =>
      cases hm : phoneMatch pw c rest with
      | some x =>
        obtain ⟨w, rem⟩ := x
        obtain ⟨hw, hbnd, htail, m, hdec, hshape⟩ := phoneMatch_sound pw c rest w rem hm
        subst hw
        rw [scanR_cons_some phoneMatch PHONE_REPL pw c rest true rem m hm hdec
          (PhoneShape_ne_nil m hshape)]
        rw [noScan_phone_through PHONE_REPL
          (by intro x hx; revert x hx; unfold PHONE_REPL; decide)
          (fun pw2 => rfl) pw (scanR phoneMatch PHONE_REPL true rem)]
        have hremlen : rem.length ≤ n := by
          have := rem_len_le c rest m rem hdec (PhoneShape_ne_nil m hshape)
          simp only [List.length_cons] at hlen
          omega
        refine noScan_pw_of phoneMatch true false _ (ih rem true hremlen) ?_
        intro h t2 hout
        have hPH : PHONE_REPL = '[' :: "PHONE REDACTED]".data := rfl
        rw [hPH] at hout
        rcases scanR_head_cases phoneMatch "PHONE REDACTED]".data true rem with
          hc1 | ⟨t3, hc2⟩ | ⟨h2, t3, t4, hc3, hc4⟩
        · rw [hc1] at hout
          exact absurd hout (by simp)
        · rw [hc2] at hout
          injection hout with hh _
          rw [← hh]
          exact phoneMatch_headFail false '[' t2 (by decide)
        · rw [hc4] at hout
          injection hout with hh _
          rw [← hh]
          rw [hc3, tailBnd] at htail
          refine phoneMatch_headFail false h2 t2 ?_
          cases hd : isDigitC h2
          · rfl
          · exact absurd (digit_isWord h2 hd) (by simpa using htail)
      | none =>
        rw [scanR_cons_none phoneMatch PHONE_REPL pw c rest hm, noScan]
        simp only [Bool.and_eq_true]
        refine ⟨?_, ih rest (isWordChar c) (by simp only [List.length_cons] at hlen; omega)⟩
        rcases scanR_firstdiv phoneMatch PHONE_REPL phoneMatch_msplit phoneMatch_bndreq
          rest (isWordChar c) with hid | ⟨u, a, v, z, hrest, hscan, hbndfd⟩
        · rw [hid, hm]
          rfl
        · rw [hscan]
          have hPH : u ++ (PHONE_REPL ++ z) = u ++ '[' :: ("PHONE REDACTED]".data ++ z) := rfl
          rw [hPH]
          rw [hrest] at hm
          rw [phoneMatch_none_truncate pw c u a v ("PHONE REDACTED]".data ++ z) hm hbndfd]
          rfl

end Medview

namespace Medview

theorem noScan_ssn_self_fuel (n : Nat) :
    ∀ (l : List Char) (pw : Bool), l.length ≤ n →
      noScan ssnMatch pw (scanR ssnMatch SSN_REPL pw l) = true := by
  induction n with
  | zero =>
    intro l pw hlen
    have hnil : l = [] := by
      cases l with
      | nil => rfl
      | cons c r => simp at hlen
    subst hnil
    rw [scanR_nil]
    rfl
  | succ n ih =>
    intro l pw hlen
    cases l with
    | nil => rw [scanR_nil]; rfl
    | cons c rest =>
      cases hm : ssnMatch pw c rest with
      | some x =>
        obtain ⟨w, rem⟩ := x
        obtain ⟨hw, hbnd, htail, m, hdec, hshape⟩ := ssnMatch_sound pw c rest w rem hm
        subst hw
        rw [scanR_cons_some ssnMatch SSN_REPL pw c rest true rem m hm hdec
          (SsnShape_ne_nil m hshape)]
        rw [noScan_ssn_through SSN_REPL
          (by intro x hx; revert x hx; unfold SSN_REPL; decide)
          (fun pw2 => rfl) pw (scanR ssnMatch SSN_REPL true rem)]
        have hremlen : rem.length ≤ n := by
          have := rem_len_le c rest m rem hdec (SsnShape_ne_nil m hshape)
          simp only [List.length_cons] at hlen
          omega
        refine noScan_pw_of ssnMatch true false _ (ih rem true hremlen) ?_
        intro h t2 hout
        have hPH : SSN_REPL = '[' :: "SSN REDACTED]".data := rfl
        rw [hPH] at hout
        rcases scanR_head_cases ssnMatch "SSN REDACTED]".data true rem with
          hc1 | ⟨t3, hc2⟩ | ⟨h2, t3, t4, hc3, hc4⟩
        · rw [hc1] at hout
          exact absurd hout (by simp)
        · rw [hc2] at hout
          injection hout with hh _
          rw [← hh]
          exact ssnMatch_headFail false '[' t2 (by decide)
        · rw [hc4] at hout
          injection hout with hh _
          rw [← hh]
          rw [hc3, tailBnd] at htail
          refine ssnMatch_headFail false h2 t2 ?_
          cases hd : isDigitC h2
          · rfl
          · exact absurd (digit_isWord h2 hd) (by simpa using htail)
      | none =>
        rw [scanR_cons_none ssnMatch SSN_REPL pw c rest hm, noScan]
        simp only [Bool.and_eq_true]
        refine ⟨?_, ih rest (isWordChar c) (by simp only [List.length_cons] at hlen; omega)⟩
        rcases scanR_firstdiv ssnMatch SSN_REPL ssnMatch_msplit ssnMatch_bndreq
          rest (isWordChar c) with hid | ⟨u, a, v, z, hrest, hscan, hbndfd⟩
        · rw [hid, hm]
          rfl
        · rw [hscan]
          have hPH : u ++ (SSN_REPL ++ z) = u ++ '[' :: ("SSN REDACTED]".data ++ z) := rfl
          rw [hPH]
          rw [hrest] at hm
          rw [ssnMatch_none_truncate pw c u a v ("SSN REDACTED]".data ++ z) hm hbndfd]
          rfl

theorem noScan_email_self_fuel (n : Nat) :
    ∀ (l : List Char) (pw : Bool), l.length ≤ n →
      noScan emailMatch pw (scanR emailMatch EMAIL_REPL pw l) = true := by
  induction n with
  | zero =>
    intro l pw hlen
    have hnil : l = [] := by
      cases l with
      | nil => rfl
      | cons c r => simp at hlen
    subst hnil
    rw [scanR_nil]
    rfl
  | succ n ih =>
    intro l pw hlen
    cases l with
    | nil => rw [scanR_nil]; rfl
    | cons c rest =>
      cases hm : emailMatch pw c rest with
      | some x =>
        obtain ⟨w, rem⟩ := x
        obtain ⟨hbnd, loc, dom, tld, hdec, hlocne, hlocall, hdomne, hdomall, htldlen,
          htldall, lc, hlast, hwlc, hbdry⟩ := emailMatch_sound pw c rest w rem hm
        have hdec2 : c :: rest = (loc ++ '@' :: (dom ++ '.' :: tld)) ++ rem := by
          rw [hdec]; simp
        have hmne : (loc ++ '@' :: (dom ++ '.' :: tld) : List Char) ≠ [] := by simp
        rw [scanR_cons_some emailMatch EMAIL_REPL pw c rest w rem _ hm hdec2 hmne]
        rw [noScan_email_EMAIL_REPL pw (scanR emailMatch EMAIL_REPL w rem)]
        have hremlen : rem.length ≤ n := by
          have := rem_len_le c rest _ rem hdec2 hmne
          simp only [List.length_cons] at hlen
          omega
        cases w with
        | false => exact ih rem false hremlen
        | true =>
          refine noScan_pw_of emailMatch true false _ (ih rem true hremlen) ?_
          intro h t2 hout
          have hPH : EMAIL_REPL = '[' :: "EMAIL REDACTED]".data := rfl
          rw [hPH] at hout
          rcases scanR_head_cases emailMatch "EMAIL REDACTED]".data true rem with
            hc1 | ⟨t3, hc2⟩ | ⟨h2, t3, t4, hc3, hc4⟩
          · rw [hc1] at hout
            exact absurd hout (by simp)
          · rw [hc2] at hout
            injection hout with hh _
            rw [← hh]
            exact emailMatch_notlocal false '[' t2 (by decide)
          · rw [hc4] at hout
            injection hout with hh _
            rw [← hh]
            refine emailMatch_nobnd false h2 t2 ?_
            rw [hc3] at hbdry
            rw [show ((h2 :: t4 : List Char)).head? = some h2 from rfl] at hbdry
            rw [show isWordOpt (some h2) = isWordChar h2 from rfl] at hbdry
            rw [← hwlc] at hbdry
            rw [bnd]
            cases hw2 : isWordChar h2
            · rfl
            · rw [hw2] at hbdry
              exact absurd hbdry (by simp)
      | none =>
        rw [scanR_cons_none emailMatch EMAIL_REPL pw c rest hm, noScan]
        simp only [Bool.and_eq_true]
        refine ⟨?_, ih rest (isWordChar c) (by simp only [List.length_cons] at hlen; omega)⟩
        rcases scanR_firstdiv emailMatch EMAIL_REPL emailMatch_msplit emailMatch_bndreq
          rest (isWordChar c) with hid | ⟨u, a, v, z, hrest, hscan, hbndfd⟩
        · rw [hid, hm]
          rfl
        · rw [hscan]
          have hPH : u ++ (EMAIL_REPL ++ z) = u ++ '[' :: ("EMAIL REDACTED]".data ++ z) := rfl
          rw [hPH]
          rw [hrest] at hm
          rw [emailMatch_none_truncate pw c u a v ("EMAIL REDACTED]".data ++ z) hm hbndfd]
          rfl

end Medview

namespace Medview

theorem noScan_phone_emailstage_fuel (n : Nat) :
    ∀ (l : List Char) (pw : Bool), l.length ≤ n →
      noScan phoneMatch pw l = true →
      noScan phoneMatch pw (scanR emailMatch EMAIL_REPL pw l) = true := by
  induction n with
  | zero =>
    intro l pw hlen _
    have hnil : l = [] := by
      cases l with
      | nil => rfl
      | cons c r => simp at hlen
    subst hnil
    rw [scanR_nil]
    rfl
  | succ n ih =>
    intro l pw hlen hPfull
    cases l with
    | nil => rw [scanR_nil]; rfl
    | cons c rest =>
      cases hm : emailMatch pw c rest with
      | some x =>
        obtain ⟨w, rem⟩ := x
        obtain ⟨hbnd, loc, dom, tld, hdec, hlocne, hlocall, hdomne, hdomall, htldlen,
          htldall, lc, hlast, hwlc, hbdry⟩ := emailMatch_sound pw c rest w rem hm
        have htldne : tld ≠ [] := by intro hh; rw [hh] at htldlen; simp at htldlen
        have hdec2 : c :: rest = (loc ++ '@' :: (dom ++ '.' :: tld)) ++ rem := by
          rw [hdec]; simp
        have hmne : (loc ++ '@' :: (dom ++ '.' :: tld) : List Char) ≠ [] := by simp
        rw [scanR_cons_some emailMatch EMAIL_REPL pw c rest w rem _ hm hdec2 hmne]
        rw [noScan_phone_through EMAIL_REPL
          (by intro x hx; revert x hx; unfold EMAIL_REPL; decide)
          (fun pw2 => rfl) pw _]
        have hremlen : rem.length ≤ n := by
          have := rem_len_le c rest _ rem hdec2 hmne
          simp only [List.length_cons] at hlen
          omega
        have hPrem : noScan phoneMatch w rem = true := by
          have hs := noScan_suffix phoneMatch (loc ++ '@' :: (dom ++ '.' :: tld)) rem pw
            (by rw [← hdec2]; exact hPfull)
          rw [lastPW_of_getLast? _ pw lc (email_m_getLast loc dom tld lc htldne hlast)] at hs
          rw [hwlc]
          exact hs
        have hIH := ih rem w hremlen hPrem
        cases w with
        | false => exact hIH
        | true =>
          refine noScan_pw_of phoneMatch true false _ hIH ?_
          intro h t2 hout
          have hPH : EMAIL_REPL = '[' :: "EMAIL REDACTED]".data := rfl
          rw [hPH] at hout
          rcases scanR_head_cases emailMatch "EMAIL REDACTED]".data true rem with
            hc1 | ⟨t3, hc2⟩ | ⟨h2, t3, t4, hc3, hc4⟩
          · rw [hc1] at hout
            exact absurd hout (by simp)
          · rw [hc2] at hout
            injection hout with hh _
            rw [← hh]
            exact phoneMatch_headFail false '[' t2 (by decide)
          · rw [hc4] at hout
            injection hout with hh _
            rw [← hh]
            refine phoneMatch_headFail false h2 t2 ?_
            rw [hc3] at hbdry
            rw [show ((h2 :: t4 : List Char)).head? = some h2 from rfl] at hbdry
            rw [show isWordOpt (some h2) = isWordChar h2 from rfl] at hbdry
            rw [← hwlc] at hbdry
            cases hd : isDigitC h2
            · rfl
            · rw [digit_isWord h2 hd] at hbdry
              exact absurd hbdry (by simp)
      | none =>
        rw [noScan] at hPfull
        simp only [Bool.and_eq_true, Option.isNone_iff_eq_none] at hPfull
        obtain ⟨hP1, hP2⟩ := hPfull
        rw [scanR_cons_none emailMatch EMAIL_REPL pw c rest hm, noScan]
        simp only [Bool.and_eq_true]
        refine ⟨?_, ih rest (isWordChar c)
          (by simp only [List.length_cons] at hlen; omega) hP2⟩
        rcases scanR_firstdiv emailMatch EMAIL_REPL emailMatch_msplit emailMatch_bndreq
          rest (isWordChar c) with hid | ⟨u, a, v, z, hrest, hscan, hbndfd⟩
        · rw [hid, hP1]
          rfl
        · rw [hscan]
          have hPH : u ++ (EMAIL_REPL ++ z) = u ++ '[' :: ("EMAIL REDACTED]".data ++ z) := rfl
          rw [hPH]
          rw [hrest] at hP1
          rw [phoneMatch_none_truncate pw c u a v ("EMAIL REDACTED]".data ++ z) hP1 hbndfd]
          rfl

theorem noScan_phone_ssnstage_fuel (n : Nat) :
    ∀ (l : List Char) (pw : Bool), l.length ≤ n →
      noScan phoneMatch pw l = true →
      noScan phoneMatch pw (scanR ssnMatch SSN_REPL pw l) = true := by
  induction n with
  | zero =>
    intro l pw hlen _
    have hnil : l = [] := by
      cases l with
      | nil => rfl
      | cons c r => simp at hlen
    subst hnil
    rw [scanR_nil]
    rfl
  | succ n ih =>
    intro l pw hlen hPfull
    cases l with
    | nil => rw [scanR_nil]; rfl
    | cons c rest =>
      cases hm : ssnMatch pw c rest with
      | some x =>
        obtain ⟨w, rem⟩ := x
        obtain ⟨hw, hbnd, htail, m, hdec, hshape⟩ := ssnMatch_sound pw c rest w rem hm
        subst hw
        rw [scanR_cons_some ssnMatch SSN_REPL pw c rest true rem m hm hdec
          (SsnShape_ne_nil m hshape)]
        rw [noScan_phone_through SSN_REPL
          (by intro x hx; revert x hx; unfold SSN_REPL; decide)
          (fun pw2 => rfl) pw _]
        have hremlen : rem.length ≤ n := by
          have := rem_len_le c rest m rem hdec (SsnShape_ne_nil m hshape)
          simp only [List.length_cons] at hlen
          omega
        have hPrem : noScan phoneMatch true rem = true := by
          have hs := noScan_suffix phoneMatch m rem pw (by rw [← hdec]; exact hPfull)
          obtain ⟨d, hd1, hd2⟩ := SsnShape_getLast m hshape
          rw [lastPW_of_getLast? m pw d hd1, digit_isWord d hd2] at hs
          exact hs
        refine noScan_pw_of phoneMatch true false _ (ih rem true hremlen hPrem) ?_
        intro h t2 hout
        have hPH : SSN_REPL = '[' :: "SSN REDACTED]".data := rfl
        rw [hPH] at hout
        rcases scanR_head_cases ssnMatch "SSN REDACTED]".data true rem with
          hc1 | ⟨t3, hc2⟩ | ⟨h2, t3, t4, hc3, hc4⟩
        · rw [hc1] at hout
          exact absurd hout (by simp)
        · rw [hc2] at hout
          injection hout with hh _
          rw [← hh]
          exact phoneMatch_headFail false '[' t2 (by decide)
        · rw [hc4] at hout
          injection hout with hh _
          rw [← hh]
          rw [hc3, tailBnd] at htail
          refine phoneMatch_headFail false h2 t2 ?_
          cases hd : isDigitC h2
          · rfl
          · exact absurd (digit_isWord h2 hd) (by simpa using htail)
      | none =>
        rw [noScan] at hPfull
        simp only [Bool.and_eq_true, Option.isNone_iff_eq_none] at hPfull
        obtain ⟨hP1, hP2⟩ := hPfull
        rw [scanR_cons_none ssnMatch SSN_REPL pw c rest hm, noScan]
        simp only [Bool.and_eq_true]
        refine ⟨?_, ih rest (isWordChar c)
          (by simp only [List.length_cons] at hlen; omega) hP2⟩
        rcases scanR_firstdiv ssnMatch SSN_REPL ssnMatch_msplit ssnMatch_bndreq
          rest (isWordChar c) with hid | ⟨u, a, v, z, hrest, hscan, hbndfd⟩
        · rw [hid, hP1]
          rfl
        · rw [hscan]
          have hPH : u ++ (SSN_REPL ++ z) = u ++ '[' :: ("SSN REDACTED]".data ++ z) := rfl
          rw [hPH]
          rw [hrest] at hP1
          rw [phoneMatch_none_truncate pw c u a v ("SSN REDACTED]".data ++ z) hP1 hbndfd]
          rfl

theorem noScan_email_ssnstage_fuel (n : Nat) :
    ∀ (l : List Char) (pw : Bool), l.length ≤ n →
      noScan emailMatch pw l = true →
      noScan emailMatch pw (scanR ssnMatch SSN_REPL pw l) = true := by
  induction n with
  | zero =>
    intro l pw hlen _
    have hnil : l = [] := by
      cases l with
      | nil => rfl
      | cons c r => simp at hlen
    subst hnil
    rw [scanR_nil]
    rfl
  | succ n ih =>
    intro l pw hlen hEfull
    cases l with
    | nil => rw [scanR_nil]; rfl
    | cons c rest =>
      cases hm : ssnMatch pw c rest with
      | some x =>
        obtain ⟨w, rem⟩ := x
        obtain ⟨hw, hbnd, htail, m, hdec, hshape⟩ := ssnMatch_sound pw c rest w rem hm
        subst hw
        rw [scanR_cons_some ssnMatch SSN_REPL pw c rest true rem m hm hdec
          (SsnShape_ne_nil m hshape)]
        rw [noScan_email_SSN_REPL pw _]
        have hremlen : rem.length ≤ n := by
          have := rem_len_le c rest m rem hdec (SsnShape_ne_nil m hshape)
          simp only [List.length_cons] at hlen
          omega
        have hErem : noScan emailMatch true rem = true := by
          have hs := noScan_suffix emailMatch m rem pw (by rw [← hdec]; exact hEfull)
          obtain ⟨d, hd1, hd2⟩ := SsnShape_getLast m hshape
          rw [lastPW_of_getLast? m pw d hd1, digit_isWord d hd2] at hs
          exact hs
        refine noScan_pw_of emailMatch true false _ (ih rem true hremlen hErem) ?_
        intro h t2 hout
        have hPH : SSN_REPL = '[' :: "SSN REDACTED]".data := rfl
        rw [hPH] at hout
        rcases scanR_head_cases ssnMatch "SSN REDACTED]".data true rem with
          hc1 | ⟨t3, hc2⟩ | ⟨h2, t3, t4, hc3, hc4⟩
        · rw [hc1] at hout
          exact absurd hout (by simp)
        · rw [hc2] at hout
          injection hout with hh _
          rw [← hh]
          exact emailMatch_notlocal false '[' t2 (by decide)
        · rw [hc4] at hout
          injection hout with hh _
          rw [← hh]
          rw [hc3, tailBnd] at htail
          refine emailMatch_nobnd false h2 t2 ?_
          rw [bnd]
          cases hw2 : isWordChar h2
          · rfl
          · rw [hw2] at htail
            exact absurd htail (by simp)
      | none =>
        rw [noScan] at hEfull
        simp only [Bool.and_eq_true, Option.isNone_iff_eq_none] at hEfull
        obtain ⟨hE1, hE2⟩ := hEfull
        rw [scanR_cons_none ssnMatch SSN_REPL pw c rest hm, noScan]
        simp only [Bool.and_eq_true]
        refine ⟨?_, ih rest (isWordChar c)
          (by simp only [List.length_cons] at hlen; omega) hE2⟩
        rcases scanR_firstdiv ssnMatch SSN_REPL ssnMatch_msplit ssnMatch_bndreq
          rest (isWordChar c) with hid | ⟨u, a, v, z, hrest, hscan, hbndfd⟩
        · rw [hid, hE1]
          rfl
        · rw [hscan]
          have hPH : u ++ (SSN_REPL ++ z) = u ++ '[' :: ("SSN REDACTED]".data ++ z) := rfl
          rw [hPH]
          rw [hrest] at hE1
          rw [emailMatch_none_truncate pw c u a v ("SSN REDACTED]".data ++ z) hE1 hbndfd]
          rfl

end Medview

namespace Medview

/-- After the full three-stage pipeline no position of the output matches the
phone, email or SSN regex. -/
theorem sanitize_clear (s : String) :
    noScan phoneMatch false (sanitizeForHIPAA s).data = true ∧
    noScan emailMatch false (sanitizeForHIPAA s).data = true ∧
    noScan ssnMatch false (sanitizeForHIPAA s).data = true := by
  have hdata : (sanitizeForHIPAA s).data =
      scanR ssnMatch SSN_REPL false
        (scanR emailMatch EMAIL_REPL false
          (scanR phoneMatch PHONE_REPL false s.data)) := rfl
  have hp1 : noScan phoneMatch false (scanR phoneMatch PHONE_REPL false s.data) = true :=
    noScan_phone_self_fuel s.data.length s.data false le_rfl
  have hp2 : noScan phoneMatch false
      (scanR emailMatch EMAIL_REPL false (scanR phoneMatch PHONE_REPL false s.data)) = true :=
    noScan_phone_emailstage_fuel _ _ false le_rfl hp1
  have hp3 : noScan phoneMatch false
      (scanR ssnMatch SSN_REPL false
        (scanR emailMatch EMAIL_REPL false (scanR phoneMatch PHONE_REPL false s.data))) = true :=
    noScan_phone_ssnstage_fuel _ _ false le_rfl hp2
  have he2 : noScan emailMatch false
      (scanR emailMatch EMAIL_REPL false (scanR phoneMatch PHONE_REPL false s.data)) = true :=
    noScan_email_self_fuel _ _ false le_rfl
  have he3 : noScan emailMatch false
      (scanR ssnMatch SSN_REPL false
        (scanR emailMatch EMAIL_REPL false (scanR phoneMatch PHONE_REPL false s.data))) = true :=
    noScan_email_ssnstage_fuel _ _ false le_rfl he2
  have hs3 : noScan ssnMatch false
      (scanR ssnMatch SSN_REPL false
        (scanR emailMatch EMAIL_REPL false (scanR phoneMatch PHONE_REPL false s.data))) = true :=
    noScan_ssn_self_fuel _ _ false le_rfl
  rw [hdata]
  exact ⟨hp3, he3, hs3⟩

/-- C3: sanitization is idempotent — for every input string x,
`sanitizeForHIPAA (sanitizeForHIPAA x) = sanitizeForHIPAA x`; re-applying the
sanitizer to already-redacted text changes nothing further. -/
theorem sanitize_idempotent (s : String) :
    sanitizeForHIPAA (sanitizeForHIPAA s) = sanitizeForHIPAA s := by
  obtain ⟨hp, he, hs⟩ := sanitize_clear s
  show (⟨scanR ssnMatch SSN_REPL false
      (scanR emailMatch EMAIL_REPL false
        (scanR phoneMatch PHONE_REPL false (sanitizeForHIPAA s).data))⟩ : String)
      = sanitizeForHIPAA s
  rw [scanR_eq_self_of_noScan phoneMatch PHONE_REPL _ false hp,
      scanR_eq_self_of_noScan emailMatch EMAIL_REPL _ false he,
      scanR_eq_self_of_noScan ssnMatch SSN_REPL _ false hs]

end Medview

namespace Medview

/-- Concrete run: a bare SSN is replaced by the `[SSN REDACTED]` placeholder. -/
theorem sanitize_ssn_example :
    sanitizeForHIPAA "123-45-6789" = "[SSN REDACTED]" := by
  show (⟨scanR ssnMatch SSN_REPL false
      (scanR emailMatch EMAIL_REPL false
        (scanR phoneMatch PHONE_REPL false "123-45-6789".data))⟩ : String)
      = "[SSN REDACTED]"
  rw [scanR_eq_self_of_noScan phoneMatch PHONE_REPL "123-45-6789".data false (by decide)]
  rw [scanR_eq_self_of_noScan emailMatch EMAIL_REPL "123-45-6789".data false (by decide)]
  rw [show ("123-45-6789".data : List Char) = '1' :: "23-45-6789".data from by decide]
  rw [scanR_cons_some ssnMatch SSN_REPL false '1' "23-45-6789".data true []
    ('1' :: "23-45-6789".data) (by decide) (by decide) (by decide)]
  rw [scanR_nil]
  decide

/-- Concrete run: a bare phone number is replaced by `[PHONE REDACTED]`. -/
theorem sanitize_phone_example :
    sanitizeForHIPAA "555-123-4567" = "[PHONE REDACTED]" := by
  show (⟨scanR ssnMatch SSN_REPL false
      (scanR emailMatch EMAIL_REPL false
        (scanR phoneMatch PHONE_REPL false "555-123-4567".data))⟩ : String)
      = "[PHONE REDACTED]"
  rw [show ("555-123-4567".data : List Char) = '5' :: "55-123-4567".data from by decide]
  rw [scanR_cons_some phoneMatch PHONE_REPL false '5' "55-123-4567".data true []
    ('5' :: "55-123-4567".data) (by decide) (by decide) (by decide)]
  rw [scanR_nil]
  rw [show (PHONE_REPL ++ [] : List Char) = "[PHONE REDACTED]".data from by decide]
  rw [scanR_eq_self_of_noScan emailMatch EMAIL_REPL "[PHONE REDACTED]".data false (by decide)]
  rw [scanR_eq_self_of_noScan ssnMatch SSN_REPL "[PHONE REDACTED]".data false (by decide)]

/-- Concrete run: a bare email address is replaced by `[EMAIL REDACTED]`. -/
theorem sanitize_email_example :
    sanitizeForHIPAA "a@b.co" = "[EMAIL REDACTED]" := by
  show (⟨scanR ssnMatch SSN_REPL false
      (scanR emailMatch EMAIL_REPL false
        (scanR phoneMatch PHONE_REPL false "a@b.co".data))⟩ : String)
      = "[EMAIL REDACTED]"
  rw [scanR_eq_self_of_noScan phoneMatch PHONE_REPL "a@b.co".data false (by decide)]
  rw [show ("a@b.co".data : List Char) = 'a' :: "@b.co".data from by decide]
  rw [scanR_cons_some emailMatch EMAIL_REPL false 'a' "@b.co".data true []
    ('a' :: "@b.co".data) (by decide) (by decide) (by decide)]
  rw [scanR_nil]
  rw [show (EMAIL_REPL ++ [] : List Char) = "[EMAIL REDACTED]".data from by decide]
  rw [scanR_eq_self_of_noScan ssnMatch SSN_REPL "[EMAIL REDACTED]".data false (by decide)]

/-- C7 counterexample: the SSN placeholder written by the code is
`[SSN REDACTED]`, not the `[ID REDACTED]` the claim names. -/
theorem sanitizer_placeholder_counterexample :
    sanitizeForHIPAA "123-45-6789" = "[SSN REDACTED]" ∧
    sanitizeForHIPAA "123-45-6789" ≠ "[ID REDACTED]" := by
  refine ⟨sanitize_ssn_example, ?_⟩
  rw [sanitize_ssn_example]
  decide

/-- C7 (amended): the sanitizer replaces phone-number patterns with
`[PHONE REDACTED]`, email patterns with `[EMAIL REDACTED]` and SSN patterns
with `[SSN REDACTED]` (not `[ID REDACTED]`); on every input the output
contains no position at which any of the three regexes still matches, and
each bare pattern is rewritten to exactly its placeholder. -/
theorem sanitizeForHIPAA_redacts_all (s : String) :
    (noScan phoneMatch false (sanitizeForHIPAA s).data = true ∧
     noScan emailMatch false (sanitizeForHIPAA s).data = true ∧
     noScan ssnMatch false (sanitizeForHIPAA s).data = true) ∧
    PHONE_REPL = "[PHONE REDACTED]".data ∧
    EMAIL_REPL = "[EMAIL REDACTED]".data ∧
    SSN_REPL = "[SSN REDACTED]".data ∧
    sanitizeForHIPAA "555-123-4567" = "[PHONE REDACTED]" ∧
    sanitizeForHIPAA "a@b.co" = "[EMAIL REDACTED]" ∧
    sanitizeForHIPAA "123-45-6789" = "[SSN REDACTED]" :=
  ⟨sanitize_clear s, rfl, rfl, rfl,
   sanitize_phone_example, sanitize_email_example, sanitize_ssn_example⟩

end Medview
